import Mathlib

/-!
# Verification of the deal.II hard-core subsystems

This development gives a shallow embedding, in exact rational arithmetic, of
the two subsystems singled out by the specification of this repository:

* the tensor-product even-odd shape evaluator exercised by
  `tests/matrix_free/evaluate_1d_shape_08.cc` (shape-table construction,
  symmetrized storage and dense reference computation are translated from
  that test; the even-odd kernel itself lives in
  `include/deal.II/matrix_free/tensor_product_kernels.h`, which is not part
  of the sample, and is therefore modelled from the specification);
* the distributed ghost-data exchange
  (`GridTools::exchange_cell_data_to_ghosts`) and the quadrature-point data
  storage/transfer (`CellDataStorage`,
  `parallel::distributed::ContinuousQuadratureDataTransfer`), whose
  implementations are likewise outside the sample and are modelled from the
  specification, with the scenarios taken from
  `tests/distributed_grids/grid_tools_exchange_cell_data_02.cc` and
  `tests/base/quadrature_point_data_03.cc`.

All floating-point quantities are embedded as rationals; the equalities
proved below are exact, which in particular implies the 1e-12 / 1e-10
tolerances demanded by the tests.  A vectorized lane type is data-parallel
(each lane is computed independently, per the spec), so a single rational
lane faithfully represents every lane.
-/

/-! ## 1. Tensor-product even-odd evaluator

Sizes: the shape table has `M` rows (output points of the forward product)
and `N` columns.  Tables are embedded as functions `ℕ → ℕ → ℚ`; only the
entries with index below the bounds are ever read.
-/

/-- Dense forward reference product: entry `i` of the `M×N` table applied to
`x` (`evaluate_1d_shape_08.cc`, lines 76-82: `y_ref[i] += shape[i][j]*x[j]`). -/
def denseMulRow (N : ℕ) (shape : ℕ → ℕ → ℚ) (x : ℕ → ℚ) (i : ℕ) : ℚ :=
  ∑ j ∈ Finset.range N, shape i j * x j

/-- Dense transpose reference product: entry `j` of the transposed table
applied to `y` (`evaluate_1d_shape_08.cc`, lines 113-120:
`x_ref[i] += shape[j][i]*y[j]`). -/
def denseMulCol (M : ℕ) (shape : ℕ → ℕ → ℚ) (y : ℕ → ℚ) (j : ℕ) : ℚ :=
  ∑ i ∈ Finset.range M, shape i j * y i

/-- Mirror (point-reflection) symmetry of a table, the relation imposed by
`evaluate_1d_shape_08.cc` lines 41-44 for `type == 0` and `type == 2`:
`shape[M-1-i][N-1-j] = shape[i][j]`. -/
def MirrorSym (M N : ℕ) (shape : ℕ → ℕ → ℚ) : Prop :=
  ∀ i < M, ∀ j < N, shape (M - 1 - i) (N - 1 - j) = shape i j

/-- Mirror antisymmetry of a table, the relation imposed by
`evaluate_1d_shape_08.cc` line 42 for `type == 1`:
`shape[M-1-i][N-1-j] = -shape[i][j]`. -/
def MirrorAnti (M N : ℕ) (shape : ℕ → ℕ → ℚ) : Prop :=
  ∀ i < M, ∀ j < N, shape (M - 1 - i) (N - 1 - j) = -shape i j

/-- Symmetrized (even-odd compressed) table of size `M × ⌈N/2⌉`, exactly as
built by `evaluate_1d_shape_08.cc`, lines 57-68: row `i < M/2` holds the
even combination `(shape[i][q] + shape[i][N-1-q])/2`, row `M-1-i` the odd
combination `(shape[i][q] - shape[i][N-1-q])/2`, and (for odd `M`) the
middle row is copied verbatim. -/
def symOf (M N : ℕ) (shape : ℕ → ℕ → ℚ) (i q : ℕ) : ℚ :=
  if 2 * i + 1 = M then shape i q
  else if 2 * i < M then (shape i q + shape i (N - 1 - q)) / 2
  else (shape (M - 1 - i) q - shape (M - 1 - i) (N - 1 - q)) / 2

/-- Sum of a mirrored input pair, middle entry of an odd-length vector taken
once.  Helper stream of the even-odd kernel. -/
def pairSum (N : ℕ) (x : ℕ → ℚ) (q : ℕ) : ℚ :=
  if 2 * q + 1 = N then x q else x q + x (N - 1 - q)

/-- Difference of a mirrored input pair, zero at the middle entry of an
odd-length vector.  Helper stream of the even-odd kernel. -/
def pairDiff (N : ℕ) (x : ℕ → ℚ) (q : ℕ) : ℚ :=
  if 2 * q + 1 = N then 0 else x q - x (N - 1 - q)

/-- Modelled from the spec: the forward (basis→quadrature) even-odd kernel of
`internal::EvaluatorTensorProduct<internal::evaluate_evenodd, …>` from
`include/deal.II/matrix_free/tensor_product_kernels.h` (not in the sample),
following §4.1 of the specification: for each output index `i` in the
symmetric half, one partial sum combines the symmetrized table values with
the sums of mirrored input pairs and one combines the antisymmetrized table
values with the differences; the true output pair `(y[i], y[M-1-i])` is
reconstructed by adding/subtracting the partial sums.  `type = 1`
(gradients) uses the antisymmetric sign pattern; `type = 0` (values) and
`type = 2` (hessians) the symmetric one.  The odd middle row participates
in only one partial sum, selected by `type`. -/
def evenoddForward (type M N : ℕ) (sym : ℕ → ℕ → ℚ) (x : ℕ → ℚ) (i : ℕ) : ℚ :=
  if 2 * i + 1 = M then
    (if type = 1 then ∑ q ∈ Finset.range ((N + 1) / 2), sym i q * pairDiff N x q
     else ∑ q ∈ Finset.range ((N + 1) / 2), sym i q * pairSum N x q)
  else if 2 * i < M then
    (∑ q ∈ Finset.range ((N + 1) / 2), sym i q * pairSum N x q) +
      ∑ q ∈ Finset.range ((N + 1) / 2), sym (M - 1 - i) q * pairDiff N x q
  else if type = 1 then
    (∑ q ∈ Finset.range ((N + 1) / 2), sym i q * pairDiff N x q) -
      ∑ q ∈ Finset.range ((N + 1) / 2), sym (M - 1 - i) q * pairSum N x q
  else
    (∑ q ∈ Finset.range ((N + 1) / 2), sym (M - 1 - i) q * pairSum N x q) -
      ∑ q ∈ Finset.range ((N + 1) / 2), sym i q * pairDiff N x q

/-- Modelled from the spec: the transpose (quadrature→basis, integration)
even-odd kernel of the same evaluator (§4.1: same reduction run in adjoint
direction).  Inputs of length `M` are paired as sums `y[i]+y[M-1-i]` and
differences `y[i]-y[M-1-i]`; for odd `M` the middle input contributes
through the verbatim middle row of the compressed table; the output pair
`(x[j], x[N-1-j])` is reconstructed by adding/subtracting the partial sums
with the sign pattern of the operator type, and an odd middle output column
takes only the partial sum matching the table's parity. -/
def evenoddTranspose (type M N : ℕ) (sym : ℕ → ℕ → ℚ) (y : ℕ → ℚ) (j : ℕ) : ℚ :=
  if 2 * j + 1 = N then
    (if type = 1 then
      ∑ i ∈ Finset.range (M / 2), sym i j * (y i - y (M - 1 - i))
     else
      (∑ i ∈ Finset.range (M / 2), sym i j * (y i + y (M - 1 - i))) +
        (if M % 2 = 1 then sym (M / 2) j * y (M / 2) else 0))
  else if 2 * j < N then
    (if type = 1 then
      (∑ i ∈ Finset.range (M / 2), sym i j * (y i - y (M - 1 - i))) +
        (∑ i ∈ Finset.range (M / 2), sym (M - 1 - i) j * (y i + y (M - 1 - i))) +
        (if M % 2 = 1 then sym (M / 2) j * y (M / 2) else 0)
     else
      (∑ i ∈ Finset.range (M / 2), sym i j * (y i + y (M - 1 - i))) +
        (∑ i ∈ Finset.range (M / 2), sym (M - 1 - i) j * (y i - y (M - 1 - i))) +
        (if M % 2 = 1 then sym (M / 2) j * y (M / 2) else 0))
  else
    (if type = 1 then
      (∑ i ∈ Finset.range (M / 2), sym i (N - 1 - j) * (y i - y (M - 1 - i))) -
        (∑ i ∈ Finset.range (M / 2),
          sym (M - 1 - i) (N - 1 - j) * (y i + y (M - 1 - i))) -
        (if M % 2 = 1 then sym (M / 2) (N - 1 - j) * y (M / 2) else 0)
     else
      (∑ i ∈ Finset.range (M / 2), sym i (N - 1 - j) * (y i + y (M - 1 - i))) -
        (∑ i ∈ Finset.range (M / 2),
          sym (M - 1 - i) (N - 1 - j) * (y i - y (M - 1 - i))) +
        (if M % 2 = 1 then sym (M / 2) (N - 1 - j) * y (M / 2) else 0))

/-- Modelled from the spec: forward evaluator call with overwrite/accumulate
mode (`add` template flag): in accumulate mode the kernel result is added to
the prior output contents, in overwrite mode the prior contents are
discarded. -/
def evalForward (type M N : ℕ) (sym : ℕ → ℕ → ℚ) (add : Bool) (x prior : ℕ → ℚ)
    (i : ℕ) : ℚ :=
  (if add then prior i else 0) + evenoddForward type M N sym x i

/-- Modelled from the spec: transpose evaluator call with
overwrite/accumulate mode. -/
def evalTranspose (type M N : ℕ) (sym : ℕ → ℕ → ℚ) (add : Bool) (y prior : ℕ → ℚ)
    (j : ℕ) : ℚ :=
  (if add then prior j else 0) + evenoddTranspose type M N sym y j

/-- Splitting a sum over `range N` into mirrored pairs plus (for odd `N`) the
middle term. -/
lemma sum_range_pair_split :
    ∀ (N : ℕ) (f : ℕ → ℚ),
      ∑ j ∈ Finset.range N, f j =
        (∑ q ∈ Finset.range (N / 2), (f q + f (N - 1 - q))) +
          (if N % 2 = 1 then f (N / 2) else 0) := by
  intro N
  induction N using Nat.strong_induction_on with
  | _ N ih =>
    match N with
    | 0 => intro f; simp
    | 1 => intro f; simp
    | (n + 2) =>
      intro f
      have h2 : ∑ j ∈ Finset.range (n + 2), f j
          = (∑ j ∈ Finset.range n, f (j + 1)) + f 0 + f (n + 1) := by
        rw [Finset.sum_range_succ, Finset.sum_range_succ']
      have hih := ih n (by omega) (fun j => f (j + 1))
      simp only [] at hih
      have hK : (n + 2) / 2 = n / 2 + 1 := by omega
      have hm : (n + 2) % 2 = n % 2 := by omega
      rw [h2, hih, hK, hm, Finset.sum_range_succ']
      have e1 : ∀ q ∈ Finset.range (n / 2),
          f (q + 1) + f (n + 2 - 1 - (q + 1)) = f (q + 1) + f (n - 1 - q + 1) := by
        intro q hq
        simp only [Finset.mem_range] at hq
        have : n + 2 - 1 - (q + 1) = n - 1 - q + 1 := by omega
        rw [this]
      rw [Finset.sum_congr rfl e1]
      have e2 : n + 2 - 1 - 0 = n + 1 := by omega
      rw [e2]
      ring

/-- Core identity of the even-odd forward reduction: if the even stream `u`
and odd stream `v` are the half-sum/half-difference of a target row `a`
(with the odd middle column collapsing onto `u`), then contracting `u`
against pair sums and `v` against pair differences reproduces the dense
contraction of `a`. -/
lemma evenodd_row_core (N : ℕ) (u v a x : ℕ → ℚ)
    (h1 : ∀ q, 2 * q + 1 < N → u q = (a q + a (N - 1 - q)) / 2)
    (h2 : ∀ q, 2 * q + 1 < N → v q = (a q - a (N - 1 - q)) / 2)
    (h3 : 2 * (N / 2) + 1 = N → u (N / 2) = a (N / 2)) :
    (∑ q ∈ Finset.range ((N + 1) / 2), u q * pairSum N x q) +
      ∑ q ∈ Finset.range ((N + 1) / 2), v q * pairDiff N x q =
      ∑ j ∈ Finset.range N, a j * x j := by
  rw [sum_range_pair_split N (fun j => a j * x j), ← Finset.sum_add_distrib]
  have hterm : ∀ q ∈ Finset.range (N / 2),
      u q * pairSum N x q + v q * pairDiff N x q
        = a q * x q + a (N - 1 - q) * x (N - 1 - q) := by
    intro q hq
    simp only [Finset.mem_range] at hq
    have hq' : 2 * q + 1 < N := by omega
    have hne : ¬(2 * q + 1 = N) := by omega
    rw [pairSum, pairDiff, if_neg hne, if_neg hne, h1 q hq', h2 q hq']
    ring
  rcases Nat.even_or_odd N with hN | hN
  · have hK : (N + 1) / 2 = N / 2 := by
      rcases hN with ⟨k, hk⟩; omega
    have hm : ¬(N % 2 = 1) := by
      rcases hN with ⟨k, hk⟩; omega
    rw [hK, if_neg hm, add_zero]
    exact Finset.sum_congr rfl hterm
  · have hN' : N % 2 = 1 := Nat.odd_iff.mp hN
    have hK : (N + 1) / 2 = N / 2 + 1 := by omega
    have hmidx : 2 * (N / 2) + 1 = N := by omega
    rw [hK, if_pos hN']
    simp only [Finset.sum_range_succ]
    rw [Finset.sum_congr rfl hterm]
    have hmidv : u (N / 2) * pairSum N x (N / 2) + v (N / 2) * pairDiff N x (N / 2)
        = a (N / 2) * x (N / 2) := by
      rw [pairSum, pairDiff, if_pos hmidx, if_pos hmidx, h3 hmidx]
      ring
    rw [hmidv]

/-- Core identity of the even-odd transpose reduction: if the even stream `u`
and odd stream `v` are the half-sum/half-difference of a target column `a`
across mirrored rows, then contracting `u` against input pair sums and `v`
against input pair differences, plus the middle-row contribution for odd
`M`, reproduces the dense contraction of `a`. -/
lemma evenodd_col_core (M : ℕ) (u v a y : ℕ → ℚ)
    (h1 : ∀ i, 2 * i + 1 < M → u i = (a i + a (M - 1 - i)) / 2)
    (h2 : ∀ i, 2 * i + 1 < M → v i = (a i - a (M - 1 - i)) / 2) :
    (∑ i ∈ Finset.range (M / 2), u i * (y i + y (M - 1 - i))) +
      (∑ i ∈ Finset.range (M / 2), v i * (y i - y (M - 1 - i))) +
      (if M % 2 = 1 then a (M / 2) * y (M / 2) else 0) =
      ∑ i ∈ Finset.range M, a i * y i := by
  rw [sum_range_pair_split M (fun i => a i * y i), ← Finset.sum_add_distrib]
  congr 1
  apply Finset.sum_congr rfl
  intro i hi
  simp only [Finset.mem_range] at hi
  have hi' : 2 * i + 1 < M := by omega
  rw [h1 i hi', h2 i hi']
  ring

/-- Rows strictly below the middle: the even-odd forward kernel reproduces
the dense row product for any table and any operator type (no symmetry of
the table is needed for these rows). -/
lemma evenoddForward_lower_eq (type M N : ℕ) (shape : ℕ → ℕ → ℚ) (x : ℕ → ℚ)
    (i : ℕ) (hi : i < M) (hmid : ¬(2 * i + 1 = M)) (hlow : 2 * i < M) :
    evenoddForward type M N (symOf M N shape) x i = denseMulRow N shape x i := by
  simp only [evenoddForward, denseMulRow]
  rw [if_neg hmid, if_pos hlow]
  have hup : ¬(2 * (M - 1 - i) + 1 = M) := by omega
  have hup2 : ¬(2 * (M - 1 - i) < M) := by omega
  have hii : M - 1 - (M - 1 - i) = i := by omega
  exact evenodd_row_core N (fun q => symOf M N shape i q)
    (fun q => symOf M N shape (M - 1 - i) q) (fun j => shape i j) x
    (fun q _ => by simp only [symOf]; rw [if_neg hmid, if_pos hlow])
    (fun q _ => by simp only [symOf]; rw [if_neg hup, if_neg hup2, hii])
    (fun hN => by
      simp only [symOf]
      rw [if_neg hmid, if_pos hlow]
      have e : N - 1 - (N / 2) = N / 2 := by omega
      rw [e]
      ring)

/-- Forward even-odd kernel equals the dense row product on mirror-symmetric
tables (operator types 0 and 2: values and hessians). -/
lemma evenoddForward_eq_dense_sym (type M N : ℕ) (ht : ¬(type = 1))
    (shape : ℕ → ℕ → ℚ) (x : ℕ → ℚ) (hs : MirrorSym M N shape)
    (i : ℕ) (hi : i < M) :
    evenoddForward type M N (symOf M N shape) x i = denseMulRow N shape x i := by
  by_cases hmid : 2 * i + 1 = M
  · simp only [evenoddForward, denseMulRow]
    rw [if_pos hmid, if_neg ht]
    have hrow : M - 1 - i = i := by omega
    have hflip : ∀ q, q < N → shape i (N - 1 - q) = shape i q := by
      intro q hq
      have h := hs i hi (N - 1 - q) (by omega)
      rw [hrow] at h
      have e : N - 1 - (N - 1 - q) = q := by omega
      rw [e] at h
      exact h.symm
    have hc := evenodd_row_core N (fun q => symOf M N shape i q) (fun _ => (0 : ℚ))
      (fun j => shape i j) x
      (fun q hq => by
        simp only [symOf]
        rw [if_pos hmid, hflip q (by omega)]
        ring)
      (fun q hq => by
        show (0 : ℚ) = (shape i q - shape i (N - 1 - q)) / 2
        rw [hflip q (by omega)]
        ring)
      (fun hN => by simp only [symOf]; rw [if_pos hmid])
    simpa using hc
  · by_cases hlow : 2 * i < M
    · exact evenoddForward_lower_eq type M N shape x i hi hmid hlow
    · simp only [evenoddForward, denseMulRow]
      rw [if_neg hmid, if_neg hlow, if_neg ht]
      have hi' : M - 1 - i < M := by omega
      have hii : M - 1 - (M - 1 - i) = i := by omega
      have hmid' : ¬(2 * (M - 1 - i) + 1 = M) := by omega
      have hlow' : 2 * (M - 1 - i) < M := by omega
      have hshape : ∀ q, q < N → shape i q = shape (M - 1 - i) (N - 1 - q) := by
        intro q hq
        have h := hs (M - 1 - i) hi' (N - 1 - q) (by omega)
        rw [hii] at h
        have e : N - 1 - (N - 1 - q) = q := by omega
        rw [e] at h
        exact h
      have hc := evenodd_row_core N (fun q => symOf M N shape (M - 1 - i) q)
        (fun q => -(symOf M N shape i q)) (fun j => shape i j) x
        (fun q hq => by
          simp only [symOf]
          rw [if_neg hmid', if_pos hlow',
            hshape q (by omega), hshape (N - 1 - q) (by omega)]
          have e : N - 1 - (N - 1 - q) = q := by omega
          rw [e]
          ring)
        (fun q hq => by
          simp only [symOf]
          rw [if_neg hmid, if_neg hlow,
            hshape q (by omega), hshape (N - 1 - q) (by omega)]
          have e : N - 1 - (N - 1 - q) = q := by omega
          rw [e]
          ring)
        (fun hN => by
          simp only [symOf]
          rw [if_neg hmid', if_pos hlow', hshape (N / 2) (by omega)]
          have e : N - 1 - (N / 2) = N / 2 := by omega
          rw [e]
          ring)
      simp only [neg_mul] at hc
      rw [Finset.sum_neg_distrib] at hc
      linarith [hc]

/-- Forward even-odd kernel equals the dense row product on
mirror-antisymmetric tables (operator type 1: gradients). -/
lemma evenoddForward_eq_dense_anti (M N : ℕ)
    (shape : ℕ → ℕ → ℚ) (x : ℕ → ℚ) (ha : MirrorAnti M N shape)
    (i : ℕ) (hi : i < M) :
    evenoddForward 1 M N (symOf M N shape) x i = denseMulRow N shape x i := by
  by_cases hmid : 2 * i + 1 = M
  · simp only [evenoddForward, denseMulRow]
    rw [if_pos hmid]
    simp only [if_true]
    have hrow : M - 1 - i = i := by omega
    have hflip : ∀ q, q < N → shape i (N - 1 - q) = -shape i q := by
      intro q hq
      have h := ha i hi (N - 1 - q) (by omega)
      rw [hrow] at h
      have e : N - 1 - (N - 1 - q) = q := by omega
      rw [e] at h
      linarith [h]
    have hc := evenodd_row_core N (fun _ => (0 : ℚ)) (fun q => symOf M N shape i q)
      (fun j => shape i j) x
      (fun q hq => by
        show (0 : ℚ) = (shape i q + shape i (N - 1 - q)) / 2
        rw [hflip q (by omega)]
        ring)
      (fun q hq => by
        simp only [symOf]
        rw [if_pos hmid, hflip q (by omega)]
        ring)
      (fun hN => by
        show (0 : ℚ) = shape i (N / 2)
        have h := hflip (N / 2) (by omega)
        have e : N - 1 - (N / 2) = N / 2 := by omega
        rw [e] at h
        linarith [h])
    simpa using hc
  · by_cases hlow : 2 * i < M
    · exact evenoddForward_lower_eq 1 M N shape x i hi hmid hlow
    · simp only [evenoddForward, denseMulRow]
      rw [if_neg hmid, if_neg hlow]
      simp only [if_true]
      have hi' : M - 1 - i < M := by omega
      have hii : M - 1 - (M - 1 - i) = i := by omega
      have hmid' : ¬(2 * (M - 1 - i) + 1 = M) := by omega
      have hlow' : 2 * (M - 1 - i) < M := by omega
      have hshape : ∀ q, q < N → shape i q = -shape (M - 1 - i) (N - 1 - q) := by
        intro q hq
        have h := ha (M - 1 - i) hi' (N - 1 - q) (by omega)
        rw [hii] at h
        have e : N - 1 - (N - 1 - q) = q := by omega
        rw [e] at h
        linarith [h]
      have hc := evenodd_row_core N (fun q => -(symOf M N shape (M - 1 - i) q))
        (fun q => symOf M N shape i q) (fun j => shape i j) x
        (fun q hq => by
          simp only [symOf]
          rw [if_neg hmid', if_pos hlow',
            hshape q (by omega), hshape (N - 1 - q) (by omega)]
          have e : N - 1 - (N - 1 - q) = q := by omega
          rw [e]
          ring)
        (fun q hq => by
          simp only [symOf]
          rw [if_neg hmid, if_neg hlow,
            hshape q (by omega), hshape (N - 1 - q) (by omega)]
          have e : N - 1 - (N - 1 - q) = q := by omega
          rw [e]
          ring)
        (fun hN => by
          simp only [symOf]
          rw [if_neg hmid', if_pos hlow', hshape (N / 2) (by omega)]
          have e : N - 1 - (N / 2) = N / 2 := by omega
          rw [e]
          ring)
      simp only [neg_mul] at hc
      rw [Finset.sum_neg_distrib] at hc
      linarith [hc]

/-- `symOf` on a row strictly below the middle: the even combination. -/
lemma symOf_low (M N : ℕ) (shape : ℕ → ℕ → ℚ) (i q : ℕ) (h : 2 * i + 1 < M) :
    symOf M N shape i q = (shape i q + shape i (N - 1 - q)) / 2 := by
  simp only [symOf]
  rw [if_neg (by omega : ¬(2 * i + 1 = M)), if_pos (by omega : 2 * i < M)]

/-- `symOf` on the mirror of a row strictly below the middle: the odd
combination. -/
lemma symOf_mirror (M N : ℕ) (shape : ℕ → ℕ → ℚ) (i q : ℕ) (h : 2 * i + 1 < M) :
    symOf M N shape (M - 1 - i) q = (shape i q - shape i (N - 1 - q)) / 2 := by
  simp only [symOf]
  rw [if_neg (by omega : ¬(2 * (M - 1 - i) + 1 = M)),
    if_neg (by omega : ¬(2 * (M - 1 - i) < M))]
  have e : M - 1 - (M - 1 - i) = i := by omega
  rw [e]

/-- `symOf` on the middle row of an odd-height table: copied verbatim. -/
lemma symOf_mid (M N : ℕ) (shape : ℕ → ℕ → ℚ) (q : ℕ) (h : M % 2 = 1) :
    symOf M N shape (M / 2) q = shape (M / 2) q := by
  simp only [symOf]
  rw [if_pos (by omega : 2 * (M / 2) + 1 = M)]

/-- Transpose even-odd kernel equals the dense column product on
mirror-symmetric tables (operator types 0 and 2). -/
lemma evenoddTranspose_eq_dense_sym (type M N : ℕ) (ht : ¬(type = 1))
    (shape : ℕ → ℕ → ℚ) (y : ℕ → ℚ) (hs : MirrorSym M N shape)
    (j : ℕ) (hj : j < N) :
    evenoddTranspose type M N (symOf M N shape) y j = denseMulCol M shape y j := by
  have hrowflip : ∀ i, i < M → shape i (N - 1 - j) = shape (M - 1 - i) j := by
    intro i hi
    have h := hs (M - 1 - i) (by omega) j hj
    have e : M - 1 - (M - 1 - i) = i := by omega
    rw [e] at h
    exact h
  by_cases hjm : 2 * j + 1 = N
  · -- middle output column, N odd; the mirrored column coincides with `j`
    have hjj : N - 1 - j = j := by omega
    simp only [evenoddTranspose, denseMulCol]
    rw [if_pos hjm, if_neg ht]
    have hc := evenodd_col_core M (fun i => symOf M N shape i j) (fun _ => (0 : ℚ))
      (fun i => shape i j) y
      (fun i hi => by
        show symOf M N shape i j = (shape i j + shape (M - 1 - i) j) / 2
        rw [symOf_low M N shape i j hi, hjj]
        have h := hs i (by omega) j hj
        rw [hjj] at h
        rw [h])
      (fun i hi => by
        show (0 : ℚ) = (shape i j - shape (M - 1 - i) j) / 2
        have h := hs i (by omega) j hj
        rw [hjj] at h
        rw [h]
        ring)
    have hmidv : (if M % 2 = 1 then symOf M N shape (M / 2) j * y (M / 2) else 0)
        = (if M % 2 = 1 then shape (M / 2) j * y (M / 2) else 0) := by
      by_cases h : M % 2 = 1
      · rw [if_pos h, if_pos h, symOf_mid M N shape j h]
      · rw [if_neg h, if_neg h]
    rw [hmidv]
    simp only [zero_mul, Finset.sum_const_zero] at hc
    linarith [hc]
  · by_cases hjl : 2 * j < N
    · -- output column strictly in the lower half
      simp only [evenoddTranspose, denseMulCol]
      rw [if_neg hjm, if_pos hjl, if_neg ht]
      have hc := evenodd_col_core M (fun i => symOf M N shape i j)
        (fun i => symOf M N shape (M - 1 - i) j) (fun i => shape i j) y
        (fun i hi => by
          show symOf M N shape i j = (shape i j + shape (M - 1 - i) j) / 2
          rw [symOf_low M N shape i j hi, hrowflip i (by omega)])
        (fun i hi => by
          show symOf M N shape (M - 1 - i) j
              = (shape i j - shape (M - 1 - i) j) / 2
          rw [symOf_mirror M N shape i j hi, hrowflip i (by omega)])
      have hmidv : (if M % 2 = 1 then symOf M N shape (M / 2) j * y (M / 2) else 0)
          = (if M % 2 = 1 then shape (M / 2) j * y (M / 2) else 0) := by
        by_cases h : M % 2 = 1
        · rw [if_pos h, if_pos h, symOf_mid M N shape j h]
        · rw [if_neg h, if_neg h]
      rw [hmidv]
      linarith [hc]
    · -- output column in the mirror half, reconstructed from column N-1-j
      simp only [evenoddTranspose, denseMulCol]
      rw [if_neg hjm, if_neg hjl, if_neg ht]
      have hcol : ∀ i, i < M → shape i (N - 1 - j) = shape (M - 1 - i) j :=
        hrowflip
      have hcol2 : ∀ i, i < M → shape i (N - 1 - (N - 1 - j)) = shape i j := by
        intro i hi
        have e : N - 1 - (N - 1 - j) = j := by omega
        rw [e]
      have hc := evenodd_col_core M (fun i => symOf M N shape i (N - 1 - j))
        (fun i => -(symOf M N shape (M - 1 - i) (N - 1 - j)))
        (fun i => shape i j) y
        (fun i hi => by
          show symOf M N shape i (N - 1 - j)
              = (shape i j + shape (M - 1 - i) j) / 2
          rw [symOf_low M N shape i (N - 1 - j) hi, hcol i (by omega),
            hcol2 i (by omega)]
          ring)
        (fun i hi => by
          show -(symOf M N shape (M - 1 - i) (N - 1 - j))
              = (shape i j - shape (M - 1 - i) j) / 2
          rw [symOf_mirror M N shape i (N - 1 - j) hi, hcol i (by omega),
            hcol2 i (by omega)]
          ring)
      have hmidv : (if M % 2 = 1 then symOf M N shape (M / 2) (N - 1 - j) * y (M / 2) else 0)
          = (if M % 2 = 1 then shape (M / 2) j * y (M / 2) else 0) := by
        by_cases h : M % 2 = 1
        · rw [if_pos h, if_pos h, symOf_mid M N shape (N - 1 - j) h]
          have h2 := hcol (M / 2) (by omega)
          have e : M - 1 - (M / 2) = M / 2 := by omega
          rw [e] at h2
          rw [h2]
        · rw [if_neg h, if_neg h]
      simp only [neg_mul] at hc
      rw [Finset.sum_neg_distrib] at hc
      rw [hmidv]
      linarith [hc]

/-- Transpose even-odd kernel equals the dense column product on
mirror-antisymmetric tables (operator type 1: gradients). -/
lemma evenoddTranspose_eq_dense_anti (M N : ℕ)
    (shape : ℕ → ℕ → ℚ) (y : ℕ → ℚ) (ha : MirrorAnti M N shape)
    (j : ℕ) (hj : j < N) :
    evenoddTranspose 1 M N (symOf M N shape) y j = denseMulCol M shape y j := by
  have hantiflip : ∀ i, i < M → shape i (N - 1 - j) = -shape (M - 1 - i) j := by
    intro i hi
    have h := ha (M - 1 - i) (by omega) j hj
    have e : M - 1 - (M - 1 - i) = i := by omega
    rw [e] at h
    exact h
  by_cases hjm : 2 * j + 1 = N
  · -- middle output column, N odd
    have hjj : N - 1 - j = j := by omega
    simp only [evenoddTranspose, denseMulCol, if_true]
    rw [if_pos hjm]
    have hc := evenodd_col_core M (fun _ => (0 : ℚ)) (fun i => symOf M N shape i j)
      (fun i => shape i j) y
      (fun i hi => by
        show (0 : ℚ) = (shape i j + shape (M - 1 - i) j) / 2
        have h := ha i (by omega) j hj
        rw [hjj] at h
        rw [h]
        ring)
      (fun i hi => by
        show symOf M N shape i j = (shape i j - shape (M - 1 - i) j) / 2
        rw [symOf_low M N shape i j hi, hjj]
        have h := ha i (by omega) j hj
        rw [hjj] at h
        rw [h]
        ring)
    have hmid0 : (if M % 2 = 1 then shape (M / 2) j * y (M / 2) else 0) = 0 := by
      by_cases h : M % 2 = 1
      · rw [if_pos h]
        have h2 := ha (M / 2) (by omega) j hj
        have e : M - 1 - (M / 2) = M / 2 := by omega
        rw [e, hjj] at h2
        have h3 : shape (M / 2) j = 0 := by linarith [h2]
        rw [h3]
        ring
      · rw [if_neg h]
    rw [hmid0] at hc
    simp only [zero_mul, Finset.sum_const_zero] at hc
    linarith [hc]
  · by_cases hjl : 2 * j < N
    · -- output column strictly in the lower half
      simp only [evenoddTranspose, denseMulCol, if_true]
      rw [if_neg hjm, if_pos hjl]
      have hc := evenodd_col_core M (fun i => symOf M N shape (M - 1 - i) j)
        (fun i => symOf M N shape i j) (fun i => shape i j) y
        (fun i hi => by
          show symOf M N shape (M - 1 - i) j
              = (shape i j + shape (M - 1 - i) j) / 2
          rw [symOf_mirror M N shape i j hi, hantiflip i (by omega)]
          ring)
        (fun i hi => by
          show symOf M N shape i j = (shape i j - shape (M - 1 - i) j) / 2
          rw [symOf_low M N shape i j hi, hantiflip i (by omega)]
          ring)
      have hmidv : (if M % 2 = 1 then symOf M N shape (M / 2) j * y (M / 2) else 0)
          = (if M % 2 = 1 then shape (M / 2) j * y (M / 2) else 0) := by
        by_cases h : M % 2 = 1
        · rw [if_pos h, if_pos h, symOf_mid M N shape j h]
        · rw [if_neg h, if_neg h]
      rw [hmidv]
      linarith [hc]
    · -- output column in the mirror half, reconstructed from column N-1-j
      simp only [evenoddTranspose, denseMulCol, if_true]
      rw [if_neg hjm, if_neg hjl]
      have hcn : N - 1 - j < N := by omega
      have hvalc : ∀ i, i < M → shape i (N - 1 - j) = -shape (M - 1 - i) j :=
        hantiflip
      have hcol2 : N - 1 - (N - 1 - j) = j := by omega
      have hc := evenodd_col_core M
        (fun i => -(symOf M N shape (M - 1 - i) (N - 1 - j)))
        (fun i => symOf M N shape i (N - 1 - j))
        (fun i => shape i j) y
        (fun i hi => by
          show -(symOf M N shape (M - 1 - i) (N - 1 - j))
              = (shape i j + shape (M - 1 - i) j) / 2
          rw [symOf_mirror M N shape i (N - 1 - j) hi, hcol2,
            hvalc i (by omega)]
          ring)
        (fun i hi => by
          show symOf M N shape i (N - 1 - j)
              = (shape i j - shape (M - 1 - i) j) / 2
          rw [symOf_low M N shape i (N - 1 - j) hi, hcol2,
            hvalc i (by omega)]
          ring)
      have hmidv : (if M % 2 = 1 then symOf M N shape (M / 2) (N - 1 - j) * y (M / 2) else 0)
          = -(if M % 2 = 1 then shape (M / 2) j * y (M / 2) else 0) := by
        by_cases h : M % 2 = 1
        · rw [if_pos h, if_pos h, symOf_mid M N shape (N - 1 - j) h]
          have h2 := hvalc (M / 2) (by omega)
          have e : M - 1 - (M / 2) = M / 2 := by omega
          rw [e] at h2
          rw [h2]
          ring
        · rw [if_neg h, if_neg h]
          ring
      simp only [neg_mul] at hc
      rw [Finset.sum_neg_distrib] at hc
      rw [hmidv]
      linarith [hc]

/-- Raw random-based table filled by the loop of `evaluate_1d_shape_08.cc`,
lines 36-45, before the odd-size fixups: row `i < (M+1)/2` receives the
draw `r i j` and the mirrored entry `shape[M-1-i][N-1-j]` receives
`±r i j`; for an odd `M` the middle row is written by both assignments and
the later loop iteration wins (direct writes winning on the upper half of
the row, mirrored writes on the lower half). -/
def shapeBase (M N type : ℕ) (r : ℕ → ℕ → ℚ) (i j : ℕ) : ℚ :=
  if 2 * i + 1 = M then
    (if N ≤ 2 * j then r i j
     else if type = 1 then -r i (N - 1 - j) else r i (N - 1 - j))
  else if 2 * i + 1 < M then r i j
  else if type = 1 then -r (M - 1 - i) (N - 1 - j) else r (M - 1 - i) (N - 1 - j)

/-- Complete shape table of `evaluate_1d_shape_08.cc` lines 36-53: the
random mirrored fill followed by the odd-`M`/odd-`N` fixups — for `type 0`
the middle column is zeroed except for the `0.9` diagonal self coefficient,
for `type 1` the true middle entry is zeroed. -/
def shapeTest (M N type : ℕ) (r : ℕ → ℕ → ℚ) (i j : ℕ) : ℚ :=
  if type = 0 ∧ M % 2 = 1 ∧ N % 2 = 1 ∧ j = N / 2 then
    (if i = M / 2 then 9 / 10 else 0)
  else if type = 1 ∧ M % 2 = 1 ∧ N % 2 = 1 ∧ i = M / 2 ∧ j = N / 2 then 0
  else shapeBase M N type r i j

/-- The raw fill is mirror-symmetric for the non-gradient types. -/
lemma shapeBase_mirror_sym (M N type : ℕ) (ht : ¬(type = 1)) (r : ℕ → ℕ → ℚ)
    (i j : ℕ) (hi : i < M) (hj : j < N) :
    shapeBase M N type r (M - 1 - i) (N - 1 - j) = shapeBase M N type r i j := by
  by_cases hmid : 2 * i + 1 = M
  · have e : M - 1 - i = i := by omega
    by_cases hcol : N ≤ 2 * j
    · have hL : shapeBase M N type r (M - 1 - i) (N - 1 - j) = r i j := by
        simp only [shapeBase]
        rw [e, if_pos hmid, if_neg (show ¬(N ≤ 2 * (N - 1 - j)) by omega),
          if_neg ht, show N - 1 - (N - 1 - j) = j from by omega]
      have hR : shapeBase M N type r i j = r i j := by
        simp only [shapeBase]
        rw [if_pos hmid, if_pos hcol]
      rw [hL, hR]
    · by_cases hcm : 2 * j + 1 = N
      · have e2 : N - 1 - j = j := by omega
        rw [e, e2]
      · have hL : shapeBase M N type r (M - 1 - i) (N - 1 - j)
            = r i (N - 1 - j) := by
          simp only [shapeBase]
          rw [e, if_pos hmid, if_pos (show N ≤ 2 * (N - 1 - j) by omega)]
        have hR : shapeBase M N type r i j = r i (N - 1 - j) := by
          simp only [shapeBase]
          rw [if_pos hmid, if_neg hcol, if_neg ht]
        rw [hL, hR]
  · by_cases hlow : 2 * i + 1 < M
    · have hL : shapeBase M N type r (M - 1 - i) (N - 1 - j) = r i j := by
        simp only [shapeBase]
        rw [if_neg (show ¬(2 * (M - 1 - i) + 1 = M) by omega),
          if_neg (show ¬(2 * (M - 1 - i) + 1 < M) by omega), if_neg ht,
          show M - 1 - (M - 1 - i) = i from by omega,
          show N - 1 - (N - 1 - j) = j from by omega]
      have hR : shapeBase M N type r i j = r i j := by
        simp only [shapeBase]
        rw [if_neg hmid, if_pos hlow]
      rw [hL, hR]
    · have hL : shapeBase M N type r (M - 1 - i) (N - 1 - j)
          = r (M - 1 - i) (N - 1 - j) := by
        simp only [shapeBase]
        rw [if_neg (show ¬(2 * (M - 1 - i) + 1 = M) by omega),
          if_pos (show 2 * (M - 1 - i) + 1 < M by omega)]
      have hR : shapeBase M N type r i j = r (M - 1 - i) (N - 1 - j) := by
        simp only [shapeBase]
        rw [if_neg hmid, if_neg hlow, if_neg ht]
      rw [hL, hR]

/-- The raw fill is mirror-antisymmetric for the gradient type, away from
the center entry of a doubly odd table (which the source zeroes
separately). -/
lemma shapeBase_mirror_anti (M N : ℕ) (r : ℕ → ℕ → ℚ)
    (i j : ℕ) (hi : i < M) (hj : j < N)
    (hexc : ¬(2 * i + 1 = M ∧ 2 * j + 1 = N)) :
    shapeBase M N 1 r (M - 1 - i) (N - 1 - j) = -shapeBase M N 1 r i j := by
  by_cases hmid : 2 * i + 1 = M
  · have e : M - 1 - i = i := by omega
    by_cases hcol : N ≤ 2 * j
    · have hL : shapeBase M N 1 r (M - 1 - i) (N - 1 - j) = -r i j := by
        simp only [shapeBase, if_true]
        rw [e, if_pos hmid, if_neg (show ¬(N ≤ 2 * (N - 1 - j)) by omega),
          show N - 1 - (N - 1 - j) = j from by omega]
      have hR : shapeBase M N 1 r i j = r i j := by
        simp only [shapeBase, if_true]
        rw [if_pos hmid, if_pos hcol]
      rw [hL, hR]
    · have hcm : ¬(2 * j + 1 = N) := fun h => hexc ⟨hmid, h⟩
      have hL : shapeBase M N 1 r (M - 1 - i) (N - 1 - j)
          = r i (N - 1 - j) := by
        simp only [shapeBase, if_true]
        rw [e, if_pos hmid, if_pos (show N ≤ 2 * (N - 1 - j) by omega)]
      have hR : shapeBase M N 1 r i j = -r i (N - 1 - j) := by
        simp only [shapeBase, if_true]
        rw [if_pos hmid, if_neg hcol]
      rw [hL, hR, neg_neg]
  · by_cases hlow : 2 * i + 1 < M
    · have hL : shapeBase M N 1 r (M - 1 - i) (N - 1 - j) = -r i j := by
        simp only [shapeBase, if_true]
        rw [if_neg (show ¬(2 * (M - 1 - i) + 1 = M) by omega),
          if_neg (show ¬(2 * (M - 1 - i) + 1 < M) by omega),
          show M - 1 - (M - 1 - i) = i from by omega,
          show N - 1 - (N - 1 - j) = j from by omega]
      have hR : shapeBase M N 1 r i j = r i j := by
        simp only [shapeBase, if_true]
        rw [if_neg hmid, if_pos hlow]
      rw [hL, hR]
    · have hL : shapeBase M N 1 r (M - 1 - i) (N - 1 - j)
          = r (M - 1 - i) (N - 1 - j) := by
        simp only [shapeBase, if_true]
        rw [if_neg (show ¬(2 * (M - 1 - i) + 1 = M) by omega),
          if_pos (show 2 * (M - 1 - i) + 1 < M by omega)]
      have hR : shapeBase M N 1 r i j = -r (M - 1 - i) (N - 1 - j) := by
        simp only [shapeBase, if_true]
        rw [if_neg hmid, if_neg hlow]
      rw [hL, hR, neg_neg]

/-- The complete test table is mirror-symmetric for types 0 and 2
(`evaluate_1d_shape_08.cc` line 44 together with the fixup of lines 46-51). -/
lemma shapeTest_mirrorSym (M N type : ℕ) (ht : ¬(type = 1)) (r : ℕ → ℕ → ℚ) :
    MirrorSym M N (shapeTest M N type r) := by
  intro i hi j hj
  unfold shapeTest
  by_cases hf : type = 0 ∧ M % 2 = 1 ∧ N % 2 = 1 ∧ j = N / 2
  · obtain ⟨ht0, hM, hN, hj2⟩ := hf
    rw [if_pos (show type = 0 ∧ M % 2 = 1 ∧ N % 2 = 1 ∧ N - 1 - j = N / 2
        from ⟨ht0, hM, hN, by omega⟩),
      if_pos (show type = 0 ∧ M % 2 = 1 ∧ N % 2 = 1 ∧ j = N / 2
        from ⟨ht0, hM, hN, hj2⟩)]
    by_cases hi2 : i = M / 2
    · rw [if_pos (show M - 1 - i = M / 2 by omega), if_pos hi2]
    · rw [if_neg (show ¬(M - 1 - i = M / 2) by omega), if_neg hi2]
  · have hf' : ¬(type = 0 ∧ M % 2 = 1 ∧ N % 2 = 1 ∧ N - 1 - j = N / 2) := by
      rintro ⟨a, b, c, d⟩
      exact hf ⟨a, b, c, by omega⟩
    have hg : ∀ i' j' : ℕ,
        ¬(type = 1 ∧ M % 2 = 1 ∧ N % 2 = 1 ∧ i' = M / 2 ∧ j' = N / 2) := by
      rintro i' j' ⟨a, -⟩
      exact ht a
    rw [if_neg hf', if_neg hf, if_neg (hg (M - 1 - i) (N - 1 - j)),
      if_neg (hg i j)]
    exact shapeBase_mirror_sym M N type ht r i j hi hj

/-- The complete test table is mirror-antisymmetric for type 1
(`evaluate_1d_shape_08.cc` line 42 together with the fixup of lines 52-53). -/
lemma shapeTest_mirrorAnti (M N : ℕ) (r : ℕ → ℕ → ℚ) :
    MirrorAnti M N (shapeTest M N 1 r) := by
  intro i hi j hj
  unfold shapeTest
  have h10 : ∀ j' : ℕ,
      ¬((1 : ℕ) = 0 ∧ M % 2 = 1 ∧ N % 2 = 1 ∧ j' = N / 2) := by
    rintro j' ⟨a, -⟩
    exact absurd a (by decide)
  rw [if_neg (h10 (N - 1 - j)), if_neg (h10 j)]
  by_cases hf : M % 2 = 1 ∧ N % 2 = 1 ∧ i = M / 2 ∧ j = N / 2
  · obtain ⟨hM, hN, hi2, hj2⟩ := hf
    rw [if_pos (show (1 : ℕ) = 1 ∧ M % 2 = 1 ∧ N % 2 = 1 ∧
          M - 1 - i = M / 2 ∧ N - 1 - j = N / 2
        from ⟨rfl, hM, hN, by omega, by omega⟩),
      if_pos (show (1 : ℕ) = 1 ∧ M % 2 = 1 ∧ N % 2 = 1 ∧
          i = M / 2 ∧ j = N / 2
        from ⟨rfl, hM, hN, hi2, hj2⟩)]
    ring
  · have hf' : ¬((1 : ℕ) = 1 ∧ M % 2 = 1 ∧ N % 2 = 1 ∧
        M - 1 - i = M / 2 ∧ N - 1 - j = N / 2) := by
      rintro ⟨-, b, c, d, e⟩
      exact hf ⟨b, c, by omega, by omega⟩
    have hf'' : ¬((1 : ℕ) = 1 ∧ M % 2 = 1 ∧ N % 2 = 1 ∧
        i = M / 2 ∧ j = N / 2) := by
      rintro ⟨-, b, c, d, e⟩
      exact hf ⟨b, c, d, e⟩
    rw [if_neg hf', if_neg hf'']
    have hexc : ¬(2 * i + 1 = M ∧ 2 * j + 1 = N) := by
      rintro ⟨a, b⟩
      exact hf ⟨by omega, by omega, by omega, by omega⟩
    exact shapeBase_mirror_anti M N r i j hi hj hexc

/-- Concrete mirror-symmetric 3×4 table for witnesses. -/
def wShapeSym : ℕ → ℕ → ℚ := fun i j =>
  (([[1, 2, 3, 4], [5, 6, 6, 5], [4, 3, 2, 1]].getD i []).getD j 0 : ℚ)

/-- Concrete input vector of length 4 for witnesses. -/
def wX : ℕ → ℚ := fun j => ([2, -1, 3, 5].getD j 0 : ℚ)

/-- Concrete input vector of length 3 for witnesses. -/
def wY : ℕ → ℚ := fun i => ([1, 4, -2].getD i 0 : ℚ)

/-- Concrete prior output contents of length 3 for witnesses. -/
def wPrior : ℕ → ℚ := fun i => ([10, 20, 30].getD i 0 : ℚ)

/-- Concrete prior output contents of length 4 for witnesses. -/
def wPriorT : ℕ → ℚ := fun j => ([7, 8, 9, 10].getD j 0 : ℚ)

/-- Concrete random-draw table for the C4 witness. -/
def wR : ℕ → ℕ → ℚ := fun i j =>
  (([[2, -3, 5, 1, 4], [7, 2, -6, 3, 8], [1, 1, 2, 9, -5]].getD i []).getD j 0 : ℚ)

/-- C1: for every `M×N` shape table whose rows satisfy the mirror symmetry
(types 0 and 2) or antisymmetry (type 1) relation, for each of the three
operators (values `type 0`, gradients `type 1`, hessians `type 2`) and both
accumulate and overwrite modes, the even-odd evaluator applied to the
symmetrized compressed `M×⌈N/2⌉` table produces, in both forward and
transpose directions, exactly the dense `M×N` table-times-vector product
(the equality is exact in rational arithmetic, hence within `1e-12`
relative error in every vector lane). -/
theorem evenodd_matches_dense_C1 (M N type : ℕ) (htype : type < 3)
    (shape : ℕ → ℕ → ℚ)
    (hsym : if type = 1 then MirrorAnti M N shape else MirrorSym M N shape)
    (add : Bool) (x y prior priorT : ℕ → ℚ) :
    (∀ i < M, evalForward type M N (symOf M N shape) add x prior i
        = (if add then prior i else 0) + denseMulRow N shape x i) ∧
    (∀ j < N, evalTranspose type M N (symOf M N shape) add y priorT j
        = (if add then priorT j else 0) + denseMulCol M shape y j) := by
  constructor
  · intro i hi
    rw [evalForward]
    congr 1
    by_cases ht : type = 1
    · rw [if_pos ht] at hsym
      subst ht
      exact evenoddForward_eq_dense_anti M N shape x hsym i hi
    · rw [if_neg ht] at hsym
      exact evenoddForward_eq_dense_sym type M N ht shape x hsym i hi
  · intro j hj
    rw [evalTranspose]
    congr 1
    by_cases ht : type = 1
    · rw [if_pos ht] at hsym
      subst ht
      exact evenoddTranspose_eq_dense_anti M N shape y hsym j hj
    · rw [if_neg ht] at hsym
      exact evenoddTranspose_eq_dense_sym type M N ht shape y hsym j hj

/-- Witness for C1 at the concrete symmetric 3×4 table, operator `values`,
accumulate mode, forward output index 1 and transpose output index 2. -/
theorem evenodd_matches_dense_C1_witness :
    (0 : ℕ) < 3 ∧
    MirrorSym 3 4 wShapeSym ∧
    evalForward 0 3 4 (symOf 3 4 wShapeSym) true wX wPrior 1
      = (if true then wPrior 1 else 0) + denseMulRow 4 wShapeSym wX 1 ∧
    evalTranspose 0 3 4 (symOf 3 4 wShapeSym) true wY wPriorT 2
      = (if true then wPriorT 2 else 0) + denseMulCol 3 wShapeSym wY 2 := by
  refine ⟨by decide, by unfold MirrorSym; decide, ?_, ?_⟩
  · exact (evenodd_matches_dense_C1 3 4 0 (by decide) wShapeSym
      (by rw [if_neg (by decide : ¬((0 : ℕ) = 1))]; unfold MirrorSym; decide)
      true wX wY wPrior wPriorT).1 1 (by decide)
  · exact (evenodd_matches_dense_C1 3 4 0 (by decide) wShapeSym
      (by rw [if_neg (by decide : ¬((0 : ℕ) = 1))]; unfold MirrorSym; decide)
      true wX wY wPrior wPriorT).2 2 (by decide)

/-- C3: for every shape table carrying the symmetry type of its operator
and every input vector `y` of length `M`, the transpose-mode evaluator
equals the matrix-transpose multiply of the dense `M×N` table applied to
`y` (output length `N`), in both accumulate and overwrite modes — exactly
in rational arithmetic, hence within the `1e-12` tolerance. -/
theorem transpose_matches_adjoint_C3 (M N type : ℕ) (htype : type < 3)
    (shape : ℕ → ℕ → ℚ)
    (hsym : if type = 1 then MirrorAnti M N shape else MirrorSym M N shape)
    (add : Bool) (y prior : ℕ → ℚ) :
    ∀ j < N, evalTranspose type M N (symOf M N shape) add y prior j
        = (if add then prior j else 0) + denseMulCol M shape y j := by
  intro j hj
  rw [evalTranspose]
  congr 1
  by_cases ht : type = 1
  · rw [if_pos ht] at hsym
    subst ht
    exact evenoddTranspose_eq_dense_anti M N shape y hsym j hj
  · rw [if_neg ht] at hsym
    exact evenoddTranspose_eq_dense_sym type M N ht shape y hsym j hj

/-- Witness for C3 at the concrete symmetric 3×4 table, operator
`hessians`, overwrite mode, transpose output index 3. -/
theorem transpose_matches_adjoint_C3_witness :
    (2 : ℕ) < 3 ∧
    MirrorSym 3 4 wShapeSym ∧
    evalTranspose 2 3 4 (symOf 3 4 wShapeSym) false wY wPriorT 3
      = (if false then wPriorT 3 else 0) + denseMulCol 3 wShapeSym wY 3 :=
  ⟨by decide, by unfold MirrorSym; decide,
    transpose_matches_adjoint_C3 3 4 2 (by decide) wShapeSym
      (by rw [if_neg (by decide : ¬((2 : ℕ) = 1))]; unfold MirrorSym; decide)
      false wY wPriorT 3 (by decide)⟩

/-- C6: in accumulate mode each evaluator output entry equals its prior
contents plus the corresponding entry of the dense-equivalent table-vector
product; in overwrite mode it equals the product entry alone, the prior
contents being discarded — for all three operators and both the forward
and the transpose direction. -/
theorem evaluator_modes_C6 (M N type : ℕ) (htype : type < 3)
    (shape : ℕ → ℕ → ℚ)
    (hsym : if type = 1 then MirrorAnti M N shape else MirrorSym M N shape)
    (x y prior priorT : ℕ → ℚ) :
    (∀ i < M,
      evalForward type M N (symOf M N shape) true x prior i
          = prior i + denseMulRow N shape x i ∧
      evalForward type M N (symOf M N shape) false x prior i
          = denseMulRow N shape x i) ∧
    (∀ j < N,
      evalTranspose type M N (symOf M N shape) true y priorT j
          = priorT j + denseMulCol M shape y j ∧
      evalTranspose type M N (symOf M N shape) false y priorT j
          = denseMulCol M shape y j) := by
  have hcoreF : ∀ i < M,
      evenoddForward type M N (symOf M N shape) x i = denseMulRow N shape x i := by
    intro i hi
    by_cases ht : type = 1
    · rw [if_pos ht] at hsym
      subst ht
      exact evenoddForward_eq_dense_anti M N shape x hsym i hi
    · rw [if_neg ht] at hsym
      exact evenoddForward_eq_dense_sym type M N ht shape x hsym i hi
  have hcoreT : ∀ j < N,
      evenoddTranspose type M N (symOf M N shape) y j = denseMulCol M shape y j := by
    intro j hj
    by_cases ht : type = 1
    · rw [if_pos ht] at hsym
      subst ht
      exact evenoddTranspose_eq_dense_anti M N shape y hsym j hj
    · rw [if_neg ht] at hsym
      exact evenoddTranspose_eq_dense_sym type M N ht shape y hsym j hj
  constructor
  · intro i hi
    constructor
    · rw [evalForward, if_pos rfl, hcoreF i hi]
    · rw [evalForward, if_neg (by simp), hcoreF i hi, zero_add]
  · intro j hj
    constructor
    · rw [evalTranspose, if_pos rfl, hcoreT j hj]
    · rw [evalTranspose, if_neg (by simp), hcoreT j hj, zero_add]

/-- Witness for C6 at the concrete symmetric 3×4 table, operator `values`:
both modes, forward index 0 and transpose index 1. -/
theorem evaluator_modes_C6_witness :
    (0 : ℕ) < 3 ∧
    MirrorSym 3 4 wShapeSym ∧
    evalForward 0 3 4 (symOf 3 4 wShapeSym) true wX wPrior 0
      = wPrior 0 + denseMulRow 4 wShapeSym wX 0 ∧
    evalForward 0 3 4 (symOf 3 4 wShapeSym) false wX wPrior 0
      = denseMulRow 4 wShapeSym wX 0 ∧
    evalTranspose 0 3 4 (symOf 3 4 wShapeSym) false wY wPriorT 1
      = denseMulCol 3 wShapeSym wY 1 := by
  refine ⟨by decide, by unfold MirrorSym; decide, ?_, ?_, ?_⟩
  · exact ((evaluator_modes_C6 3 4 0 (by decide) wShapeSym
      (by rw [if_neg (by decide : ¬((0 : ℕ) = 1))]; unfold MirrorSym; decide)
      wX wY wPrior wPriorT).1 0 (by decide)).1
  · exact ((evaluator_modes_C6 3 4 0 (by decide) wShapeSym
      (by rw [if_neg (by decide : ¬((0 : ℕ) = 1))]; unfold MirrorSym; decide)
      wX wY wPrior wPriorT).1 0 (by decide)).2
  · exact ((evaluator_modes_C6 3 4 0 (by decide) wShapeSym
      (by rw [if_neg (by decide : ¬((0 : ℕ) = 1))]; unfold MirrorSym; decide)
      wX wY wPrior wPriorT).2 1 (by decide)).2

/-- C4: for doubly odd table sizes, the test construction forces, for the
symmetric (values) table, every middle-column entry away from the middle
row to zero and the middle diagonal entry to the nonzero self coefficient
`0.9`; for the antisymmetric (first-derivative) table it forces the true
middle entry to zero; and under this construction the even-odd evaluation
still matches the dense product exactly. -/
theorem oddMiddle_construction_C4 (M N : ℕ) (hM : M % 2 = 1) (hN : N % 2 = 1)
    (r : ℕ → ℕ → ℚ) (x : ℕ → ℚ) :
    (∀ i < M, ¬(i = M / 2) → shapeTest M N 0 r i (N / 2) = 0) ∧
    shapeTest M N 0 r (M / 2) (N / 2) = 9 / 10 ∧
    ¬((9 : ℚ) / 10 = 0) ∧
    shapeTest M N 1 r (M / 2) (N / 2) = 0 ∧
    (∀ i < M, evenoddForward 0 M N (symOf M N (shapeTest M N 0 r)) x i
        = denseMulRow N (shapeTest M N 0 r) x i) ∧
    (∀ i < M, evenoddForward 1 M N (symOf M N (shapeTest M N 1 r)) x i
        = denseMulRow N (shapeTest M N 1 r) x i) := by
  refine ⟨?_, ?_, by norm_num, ?_, ?_, ?_⟩
  · intro i hi hi2
    unfold shapeTest
    rw [if_pos (show (0 : ℕ) = 0 ∧ M % 2 = 1 ∧ N % 2 = 1 ∧ N / 2 = N / 2
        from ⟨rfl, hM, hN, rfl⟩), if_neg hi2]
  · unfold shapeTest
    rw [if_pos (show (0 : ℕ) = 0 ∧ M % 2 = 1 ∧ N % 2 = 1 ∧ N / 2 = N / 2
        from ⟨rfl, hM, hN, rfl⟩), if_pos rfl]
  · unfold shapeTest
    rw [if_neg (show ¬((1 : ℕ) = 0 ∧ M % 2 = 1 ∧ N % 2 = 1 ∧ N / 2 = N / 2)
        from fun h => absurd h.1 (by decide)),
      if_pos (show (1 : ℕ) = 1 ∧ M % 2 = 1 ∧ N % 2 = 1 ∧
          M / 2 = M / 2 ∧ N / 2 = N / 2
        from ⟨rfl, hM, hN, rfl, rfl⟩)]
  · intro i hi
    exact evenoddForward_eq_dense_sym 0 M N (by decide) (shapeTest M N 0 r) x
      (shapeTest_mirrorSym M N 0 (by decide) r) i hi
  · intro i hi
    exact evenoddForward_eq_dense_anti M N (shapeTest M N 1 r) x
      (shapeTest_mirrorAnti M N r) i hi

/-- Witness for C4 at `M = 3`, `N = 5` with a concrete draw table, checking
the forced entries and the evaluation match at output index 2. -/
theorem oddMiddle_construction_C4_witness :
    (3 : ℕ) % 2 = 1 ∧ (5 : ℕ) % 2 = 1 ∧
    shapeTest 3 5 0 wR 0 2 = 0 ∧
    shapeTest 3 5 0 wR 1 2 = 9 / 10 ∧
    shapeTest 3 5 1 wR 1 2 = 0 ∧
    evenoddForward 0 3 5 (symOf 3 5 (shapeTest 3 5 0 wR)) wX 2
      = denseMulRow 5 (shapeTest 3 5 0 wR) wX 2 :=
  ⟨by decide, by decide,
    (oddMiddle_construction_C4 3 5 (by decide) (by decide) wR wX).1 0
      (by decide) (by decide),
    (oddMiddle_construction_C4 3 5 (by decide) (by decide) wR wX).2.1,
    (oddMiddle_construction_C4 3 5 (by decide) (by decide) wR wX).2.2.2.1,
    (oddMiddle_construction_C4 3 5 (by decide) (by decide) wR wX).2.2.2.2.1 2
      (by decide)⟩

/-! ## 2. Distributed ghost-data exchange

`GridTools::exchange_cell_data_to_ghosts` and the triangulation's
ghost-layer bookkeeping are not part of the sample (only the test
`grid_tools_exchange_cell_data_02.cc` is), so the protocol is modelled from
§4.2 of the specification: destination discovery through the vertex→ghost
ranks map, per-rank batched packing keyed by `CellId`, point-to-point
delivery, and unpack dispatch that resolves each received id to the local
ghost cell and treats an unrecognized id as a fatal assertion. -/

/-- Modelled from the spec: a mesh cell as the exchange sees it — a
globally stable `CellId`, the owning rank, and its vertex indices. -/
structure GCell where
  cid : ℕ
  owner : ℕ
  verts : List ℕ
deriving DecidableEq

/-- Modelled from the spec: the partitioned mesh — the number of ranks and
the cells (each rank sees the same global list; ownership and ghost status
are derived per rank). -/
structure GMesh where
  ranks : ℕ
  cells : List GCell
deriving DecidableEq

/-- Well-formed partitioned mesh: `CellId`s are globally unique and every
owner rank exists. -/
def GMesh.Wf (m : GMesh) : Prop :=
  (m.cells.map GCell.cid).Nodup ∧ ∀ c ∈ m.cells, c.owner < m.ranks

/-- Two cells touch a common vertex. -/
def sharesVertex (c d : GCell) : Bool :=
  c.verts.any fun v => d.verts.contains v

/-- Modelled from the spec: rank `p` holds `c` as a ghost cell — `c` is
owned elsewhere and is vertex-adjacent to a cell owned by `p` (the ghost
layer of a distributed triangulation). -/
def isGhostOn (m : GMesh) (p : ℕ) (c : GCell) : Bool :=
  !(c.owner == p) && m.cells.any fun d => d.owner == p && sharesVertex c d

/-- Modelled from the spec: the `VertexGhostMap` of rank `p`
(`GridTools::compute_vertices_with_ghost_neighbors`): for a vertex `v`, the
ranks owning ghost cells (from `p`'s perspective) that touch `v`. -/
def vertexGhostRanks (m : GMesh) (p v : ℕ) : List ℕ :=
  ((m.cells.filter fun d => isGhostOn m p d && d.verts.contains v).map
    GCell.owner).dedup

/-- Modelled from the spec (§4.2 step 1, destination discovery): the ranks
that get the data of a locally owned cell `c` of rank `p` — the union of
the `VertexGhostMap` entries over `c`'s vertices. -/
def destinations (m : GMesh) (p : ℕ) (c : GCell) : List ℕ :=
  (c.verts.flatMap fun v => vertexGhostRanks m p v).dedup

/-- Modelled from the spec (§4.2 step 2, batched packing): the single
message sent from rank `p` to rank `r` — one `(CellId, payload)` entry per
locally owned cell whose destination set contains `r`. -/
def message {α : Type} (m : GMesh) (pack : ℕ → α) (p r : ℕ) : List (ℕ × α) :=
  (m.cells.filter fun c => c.owner == p && (destinations m p c).contains r).map
    fun c => (c.cid, pack c.cid)

/-- Modelled from the spec (§4.2 step 3, point-to-point exchange): all
entries arriving at rank `r`, tagged with their sender; the order across
senders is irrelevant to the properties proved below. -/
def received {α : Type} (m : GMesh) (pack : ℕ → α) (r : ℕ) :
    List (ℕ × ℕ × α) :=
  ((List.range m.ranks).filter fun p => !(p == r)).flatMap fun p =>
    (message m pack p r).map fun e => (p, e.1, e.2)

/-- Fatal assertion raised by the unpack dispatch. -/
inductive ExchangeError where
  | unknownId : ℕ → ExchangeError
  | notGhost : ℕ → ExchangeError
deriving DecidableEq

/-- Look up the local cell with a given `CellId`. -/
def findCell (m : GMesh) (cid : ℕ) : Option GCell :=
  m.cells.find? fun c => c.cid == cid

/-- Modelled from the spec (§4.2 step 4 and failure semantics): unpack
dispatch on rank `r` — each received `(sender, CellId, payload)` is
resolved to the local ghost cell with that id and appended to the list of
unpack-callback invocations; data for an id that is unknown or not held as
a ghost is a fatal assertion, not a silent drop. -/
def deliver {α : Type} (m : GMesh) (r : ℕ) :
    List (ℕ × ℕ × α) → Except ExchangeError (List (GCell × ℕ × α))
  | [] => Except.ok []
  | (p, cid, a) :: rest =>
    match findCell m cid with
    | none => Except.error (ExchangeError.unknownId cid)
    | some c =>
      if isGhostOn m r c then
        Except.map (fun l => (c, p, a) :: l) (deliver m r rest)
      else Except.error (ExchangeError.notGhost cid)

/-- Modelled from the spec: one full `exchange_cell_data_to_ghosts` call as
observed by rank `r`: pack on every owner, ship, unpack. -/
def exchangeToGhosts {α : Type} (m : GMesh) (pack : ℕ → α) (r : ℕ) :
    Except ExchangeError (List (GCell × ℕ × α)) :=
  deliver m r (received m pack r)

/-- `find?` by id on a list with unique ids returns the member itself. -/
lemma find?_cid_nodup (l : List GCell) (hn : (l.map GCell.cid).Nodup)
    (c : GCell) (hc : c ∈ l) :
    l.find? (fun d => d.cid == c.cid) = some c := by
  induction l with
  | nil => cases hc
  | cons d t ih =>
    simp only [List.map_cons, List.nodup_cons] at hn
    cases hc with
    | head =>
      exact List.find?_cons_of_pos t (by simp)
    | tail _ hmem =>
      have hd : ¬((fun d => d.cid == c.cid) d = true) := by
        intro hb
        rw [beq_iff_eq] at hb
        exact hn.1 (hb ▸ List.mem_map_of_mem GCell.cid hmem)
      rw [List.find?_cons_of_neg t hd]
      exact ih hn.2 hmem

/-- `findCell` resolves the id of a cell of a well-formed mesh to that very
cell. -/
lemma findCell_eq_self (m : GMesh) (hwf : GMesh.Wf m) (c : GCell)
    (hc : c ∈ m.cells) : findCell m c.cid = some c :=
  find?_cid_nodup m.cells hwf.1 c hc

/-- Destination discovery is exact for the vertex-adjacency ghost layer: a
rank appears in the destination set of a locally owned cell precisely when
it holds that cell as a ghost. -/
lemma mem_destinations_iff (m : GMesh) (c : GCell) (hc : c ∈ m.cells) (r : ℕ) :
    r ∈ destinations m c.owner c ↔ isGhostOn m r c = true := by
  simp only [destinations, vertexGhostRanks, isGhostOn, sharesVertex,
    List.mem_dedup, List.mem_flatMap, List.mem_map, List.mem_filter,
    Bool.and_eq_true, List.any_eq_true, beq_iff_eq, Bool.not_eq_true',
    beq_eq_false_iff_ne, ne_eq, List.elem_eq_mem, decide_eq_true_eq]
  constructor
  · rintro ⟨v, hv, d, ⟨⟨hdm, ⟨hdo, e, hem, heo, w, hwd, hwe⟩, hdv⟩, rfl⟩⟩
    refine ⟨?_, d, hdm, rfl, v, hv, hdv⟩
    intro hco
    exact hdo (by rw [← hco])
  · rintro ⟨hco, d, hdm, hdo, v, hv, hdv⟩
    refine ⟨v, hv, d, ⟨⟨hdm, ⟨?_, c, hc, rfl, v, hdv, hv⟩, hdv⟩, hdo⟩⟩
    intro hdo2
    exact hco (by rw [← hdo2]; exact hdo)

/-- If every received entry resolves to a cell held as a ghost by the
receiving rank, unpack dispatch succeeds, invokes the callback exactly on
the received entries in order with unchanged payloads, and every invoked
cell is the resolved ghost cell. -/
lemma deliver_ok_of_allGhost {α : Type} (m : GMesh) (r : ℕ)
    (items : List (ℕ × ℕ × α))
    (h : ∀ e ∈ items, ∃ d, findCell m e.2.1 = some d ∧ isGhostOn m r d = true) :
    ∃ invs, deliver m r items = Except.ok invs ∧
      invs.map (fun t => (t.2.1, t.1.cid, t.2.2)) = items ∧
      ∀ t ∈ invs, findCell m t.1.cid = some t.1 ∧ isGhostOn m r t.1 = true := by
  induction items with
  | nil => exact ⟨[], rfl, rfl, by intro t ht; cases ht⟩
  | cons e rest ih =>
    obtain ⟨p, cid, a⟩ := e
    obtain ⟨d, hfd, hgd⟩ := h (p, cid, a) (List.mem_cons_self _ _)
    obtain ⟨invs, hdel, hmap, hall⟩ :=
      ih (fun e' he' => h e' (List.mem_cons_of_mem _ he'))
    have hdc : d.cid = cid := by
      have := List.find?_some hfd
      rwa [beq_iff_eq] at this
    refine ⟨(d, p, a) :: invs, ?_, ?_, ?_⟩
    · simp only [deliver, hfd, hgd, if_true, hdel, Except.map]
    · simp only [List.map_cons, hmap, hdc]
    · intro t ht
      rcases List.mem_cons.mp ht with rfl | hmem
      · exact ⟨by rw [hdc]; exact hfd, hgd⟩
      · exact hall t hmem

/-- A `flatMap` where no chunk matches has no matches. -/
lemma countP_flatMap_zero {α β : Type} (l : List α) (f : α → List β)
    (P : β → Bool) (h : ∀ a ∈ l, (f a).countP P = 0) :
    (l.flatMap f).countP P = 0 := by
  induction l with
  | nil => rfl
  | cons a t ih =>
    rw [List.flatMap_cons, List.countP_append, h a (List.mem_cons_self a t),
      ih (fun b hb => h b (List.mem_cons_of_mem a hb))]

/-- A `flatMap` over distinct keys with exactly one matching chunk has
exactly one match. -/
lemma countP_flatMap_single {α β : Type} (l : List α) (hn : l.Nodup)
    (f : α → List β) (P : β → Bool) (a0 : α) (ha0 : a0 ∈ l)
    (h1 : (f a0).countP P = 1)
    (h0 : ∀ a ∈ l, ¬(a = a0) → (f a).countP P = 0) :
    (l.flatMap f).countP P = 1 := by
  induction l with
  | nil => cases ha0
  | cons a t ih =>
    rw [List.flatMap_cons, List.countP_append]
    rw [List.nodup_cons] at hn
    rcases List.mem_cons.mp ha0 with rfl | hmem
    · rw [h1, countP_flatMap_zero t f P
        (fun b hb => h0 b (List.mem_cons_of_mem a0 hb)
          (fun hb2 => hn.1 (hb2 ▸ hb)))]
    · rw [h0 a (List.mem_cons_self a t) (fun ha2 => hn.1 (ha2 ▸ hmem)),
        ih hn.2 hmem (fun b hb hb2 => h0 b (List.mem_cons_of_mem a hb) hb2)]

/-- Counting in a unique-id cell list with a predicate that forces the id:
exactly the designated cell matches. -/
lemma countP_cid_unique (l : List GCell) (hn : (l.map GCell.cid).Nodup)
    (c : GCell) (hc : c ∈ l) (P : GCell → Bool)
    (hPc : P c = true) (hP : ∀ d, P d = true → d.cid = c.cid) :
    l.countP P = 1 := by
  induction l with
  | nil => cases hc
  | cons d t ih =>
    simp only [List.map_cons, List.nodup_cons] at hn
    rw [List.countP_cons]
    cases hc with
    | head =>
      have ht0 : t.countP P = 0 :=
        List.countP_eq_zero.mpr (fun d' hd' hb =>
          hn.1 (hP d' hb ▸ List.mem_map_of_mem GCell.cid hd'))
      rw [ht0, if_pos hPc]
    | tail _ hmem =>
      have hd : ¬(P d = true) := fun hb =>
        hn.1 (hP d hb ▸ List.mem_map_of_mem GCell.cid hmem)
      rw [if_neg hd, ih hn.2 hmem]

/-- Every entry received by rank `r` was packed by the owner of a cell
whose destination set contains `r`. -/
lemma mem_received_elim {α : Type} (m : GMesh) (pack : ℕ → α) (r : ℕ)
    (e : ℕ × ℕ × α) (he : e ∈ received m pack r) :
    ∃ p, p < m.ranks ∧ ¬(p = r) ∧ ∃ cell, cell ∈ m.cells ∧ cell.owner = p ∧
      r ∈ destinations m p cell ∧ e = (p, cell.cid, pack cell.cid) := by
  unfold received at he
  rw [List.mem_flatMap] at he
  obtain ⟨p, hp, he⟩ := he
  rw [List.mem_filter, List.mem_range] at hp
  rw [List.mem_map] at he
  obtain ⟨e', he', rfl⟩ := he
  unfold message at he'
  rw [List.mem_map] at he'
  obtain ⟨cell, hcell, rfl⟩ := he'
  rw [List.mem_filter, Bool.and_eq_true, beq_iff_eq] at hcell
  exact ⟨p, hp.1, by simpa using hp.2, cell, hcell.1, hcell.2.1,
    by simpa using hcell.2.2, rfl⟩

/-- Every entry received by a rank of a well-formed mesh resolves to a cell
it holds as a ghost. -/
lemma received_allGhost {α : Type} (m : GMesh) (hwf : GMesh.Wf m)
    (pack : ℕ → α) (r : ℕ) :
    ∀ e ∈ received m pack r,
      ∃ d, findCell m e.2.1 = some d ∧ isGhostOn m r d = true := by
  intro e he
  obtain ⟨p, hpr, hpne, cell, hcm, hco, hdest, rfl⟩ :=
    mem_received_elim m pack r e he
  refine ⟨cell, findCell_eq_self m hwf cell hcm, ?_⟩
  rw [← mem_destinations_iff m cell hcm r]
  rw [hco]
  exact hdest

/-- The ghost pair `(c, r)` contributes exactly one entry to what `r`
receives, namely from `c`'s owner. -/
lemma received_countP_eq_one {α : Type} (m : GMesh) (hwf : GMesh.Wf m)
    (pack : ℕ → α) (r : ℕ) (c : GCell) (hc : c ∈ m.cells)
    (hg : isGhostOn m r c = true) :
    (received m pack r).countP
      (fun e => (e.2.1 == c.cid) && (e.1 == c.owner)) = 1 := by
  have hor : ¬(c.owner = r) := by
    unfold isGhostOn at hg
    rw [Bool.and_eq_true] at hg
    simpa using hg.1
  have hol : c.owner < m.ranks := hwf.2 c hc
  have hdest : r ∈ destinations m c.owner c :=
    (mem_destinations_iff m c hc r).mpr hg
  unfold received
  refine countP_flatMap_single _ (List.Nodup.filter _ (List.nodup_range _))
    _ _ c.owner ?_ ?_ ?_
  · rw [List.mem_filter, List.mem_range]
    exact ⟨hol, by simpa using hor⟩
  · rw [List.countP_map]
    unfold message
    rw [List.countP_map, List.countP_filter]
    refine countP_cid_unique m.cells hwf.1 c hc _ ?_ ?_
    · simp only [Function.comp, Bool.and_eq_true, beq_self_eq_true, true_and]
      simpa using hdest
    · intro d hb
      simp only [Function.comp, Bool.and_eq_true, beq_iff_eq] at hb
      exact hb.1.1
  · intro p hp hpo
    rw [List.countP_map]
    refine List.countP_eq_zero.mpr ?_
    intro e he hb
    simp only [Function.comp, Bool.and_eq_true, beq_iff_eq] at hb
    exact hpo hb.2

/-- Exactly-once delivery of one ghost cell's payload on a receiving rank:
the exchange succeeds, the unpack callback fires exactly once for the
`(cell, owning rank)` pair, and every invocation for that `CellId` is
resolved to the local ghost cell with that id and carries, bit-identically,
the payload the pack callback produced on the owner. -/
def ExactlyOnceFor {α : Type} (m : GMesh) (pack : ℕ → α) (r : ℕ)
    (c : GCell) : Prop :=
  ∃ invs, exchangeToGhosts m pack r = Except.ok invs ∧
    invs.countP (fun t => (t.1.cid == c.cid) && (t.2.1 == c.owner)) = 1 ∧
    ∀ t ∈ invs, t.1.cid = c.cid →
      t.1 = c ∧ t.2.1 = c.owner ∧ t.2.2 = pack c.cid

/-- C2: for every well-formed mesh partition and every locally owned cell
`c` for which the owner packed data, on each rank `r` holding a ghost copy
of `c` the unpack callback is invoked exactly once for the
`(cell, owning-rank)` pair, with a payload identical to the one produced by
the pack callback on the owner, resolved to the local ghost cell with the
same `CellId`. -/
theorem exchange_exactly_once_C2 {α : Type} (m : GMesh) (hwf : GMesh.Wf m)
    (pack : ℕ → α) (r : ℕ) (c : GCell) (hc : c ∈ m.cells)
    (hg : isGhostOn m r c = true) : ExactlyOnceFor m pack r c := by
  obtain ⟨invs, hdel, hmap, hall⟩ :=
    deliver_ok_of_allGhost m r (received m pack r)
      (received_allGhost m hwf pack r)
  refine ⟨invs, hdel, ?_, ?_⟩
  · have hcount := received_countP_eq_one m hwf pack r c hc hg
    rw [← hmap, List.countP_map] at hcount
    exact hcount
  · intro t ht hcid
    have h1 := hall t ht
    have ht1 : t.1 = c := by
      have h2 := h1.1
      rw [hcid] at h2
      have h3 := findCell_eq_self m hwf c hc
      rw [h2] at h3
      exact Option.some.inj h3
    have hmem : (t.2.1, t.1.cid, t.2.2) ∈ received m pack r := by
      rw [← hmap]
      exact List.mem_map_of_mem _ ht
    obtain ⟨p, hpr, hpne, cell, hcm, hco, hdest, heq⟩ :=
      mem_received_elim m pack r _ hmem
    obtain ⟨e1, e2, e3⟩ :
        t.2.1 = p ∧ t.1.cid = cell.cid ∧ t.2.2 = pack cell.cid := by
      simpa [Prod.ext_iff] using heq
    have hcellc : cell = c := by
      have h4 := findCell_eq_self m hwf cell hcm
      rw [← e2, hcid] at h4
      have h3 := findCell_eq_self m hwf c hc
      rw [h4] at h3
      exact Option.some.inj h3
    refine ⟨ht1, ?_, ?_⟩
    · rw [e1, ← hco, hcellc]
    · rw [e3, hcellc]

/-- Concrete two-rank mesh for the exchange witnesses: cell 0 (rank 0) and
cell 1 (rank 1) share vertex 1; cell 2 (rank 0) is isolated. -/
def wMesh : GMesh :=
  { ranks := 2,
    cells := [⟨0, 0, [0, 1]⟩, ⟨1, 1, [1, 2]⟩, ⟨2, 0, [5, 6]⟩] }

/-- The shared cell owned by rank 0 in the witness mesh. -/
def wCell : GCell := ⟨0, 0, [0, 1]⟩

/-- Concrete pack callback for the exchange witnesses. -/
def wPack : ℕ → ℕ := fun cid => 10 * cid + 7

/-- Witness for C2: in the concrete two-rank mesh, rank 1 holds cell 0 as a
ghost and receives its payload exactly once. -/
theorem exchange_exactly_once_C2_witness :
    GMesh.Wf wMesh ∧ wCell ∈ wMesh.cells ∧ isGhostOn wMesh 1 wCell = true ∧
    ExactlyOnceFor wMesh wPack 1 wCell := by
  refine ⟨by unfold GMesh.Wf; decide, by decide, by decide, ?_⟩
  exact exchange_exactly_once_C2 wMesh (by unfold GMesh.Wf; decide) wPack 1
    wCell (by decide) (by decide)

/-- Unpack dispatch raises the fatal assertion whenever some received entry
has an id that is unknown or not held as a ghost. -/
lemma deliver_error_of_bad {α : Type} (m : GMesh) (r : ℕ)
    (items : List (ℕ × ℕ × α))
    (hbad : ∃ e ∈ items, ∀ d, findCell m e.2.1 = some d →
      isGhostOn m r d = false) :
    ∃ err, deliver m r items = Except.error err := by
  induction items with
  | nil =>
    obtain ⟨e, he, -⟩ := hbad
    cases he
  | cons e rest ih =>
    obtain ⟨p, cid, a⟩ := e
    obtain ⟨e', he', hbadE⟩ := hbad
    cases hfc : findCell m cid with
    | none =>
      exact ⟨ExchangeError.unknownId cid, by simp [deliver, hfc]⟩
    | some d =>
      by_cases hgd : isGhostOn m r d = true
      · rcases List.mem_cons.mp he' with rfl | hmem
        · exact absurd hgd (by simp [hbadE d hfc])
        · obtain ⟨err, herr⟩ := ih ⟨e', hmem, hbadE⟩
          exact ⟨err, by simp [deliver, hfc, hgd, herr, Except.map]⟩
      · exact ⟨ExchangeError.notGhost cid,
          by simp [deliver, hfc, Bool.eq_false_iff.mpr hgd]⟩

/-- On success, unpack dispatch reproduces exactly the received entries: no
entry is dropped or modified, and every invoked cell is ghost-held. -/
lemma deliver_ok_faithful {α : Type} (m : GMesh) (r : ℕ)
    (items : List (ℕ × ℕ × α)) (invs : List (GCell × ℕ × α))
    (h : deliver m r items = Except.ok invs) :
    invs.map (fun t => (t.2.1, t.1.cid, t.2.2)) = items ∧
      ∀ t ∈ invs, isGhostOn m r t.1 = true := by
  induction items generalizing invs with
  | nil =>
    obtain rfl : ([] : List (GCell × ℕ × α)) = invs := by
      simpa [deliver] using h
    exact ⟨rfl, by intro t ht; cases ht⟩
  | cons e rest ih =>
    obtain ⟨p, cid, a⟩ := e
    cases hfc : findCell m cid with
    | none => simp [deliver, hfc] at h
    | some d =>
      by_cases hgd : isGhostOn m r d = true
      · cases hrest : deliver m r rest with
        | error err => simp [deliver, hfc, hgd, hrest, Except.map] at h
        | ok invs' =>
          have hinvs : (d, p, a) :: invs' = invs := by
            simpa [deliver, hfc, hgd, hrest, Except.map] using h
          obtain ⟨hmap, hall⟩ := ih invs' hrest
          have hdc : d.cid = cid := by
            have := List.find?_some hfc
            rwa [beq_iff_eq] at this
          subst hinvs
          refine ⟨by simp [hmap, hdc], ?_⟩
          intro t ht
          rcases List.mem_cons.mp ht with rfl | hmem
          · exact hgd
          · exact hall t hmem
      · simp [deliver, hfc, Bool.eq_false_iff.mpr hgd] at h

/-- Failure semantics of the unpack dispatch: data for a `CellId` the
receiving rank does not hold as a ghost is a fatal assertion (never a
silent drop), and a successful unpack run forwards every received entry,
unchanged, to the callback — the observable state is altered only by the
callback's own invocations. -/
def FatalOnUnknown {α : Type} (m : GMesh) (r : ℕ)
    (items : List (ℕ × ℕ × α)) : Prop :=
  ((∃ e ∈ items, ∀ d, findCell m e.2.1 = some d → isGhostOn m r d = false) →
    ∃ err, deliver m r items = Except.error err) ∧
  (∀ invs, deliver m r items = Except.ok invs →
    invs.map (fun t => (t.2.1, t.1.cid, t.2.2)) = items ∧
      ∀ t ∈ invs, isGhostOn m r t.1 = true)

/-- C7: a destination rank receiving data keyed by a `CellId` it does not
currently hold as a ghost raises the fatal assertion instead of silently
dropping the item; and on every successful unpack run the state observed by
the callback consists exactly of the received entries, unchanged, so the
only effects are the callback's own. -/
theorem exchange_protocol_violation_C7 {α : Type} (m : GMesh) (r : ℕ)
    (items : List (ℕ × ℕ × α)) : FatalOnUnknown m r items :=
  ⟨fun hbad => deliver_error_of_bad m r items hbad,
   fun invs h => deliver_ok_faithful m r items invs h⟩

/-- Witness for C7 at a concrete item list carrying an unknown `CellId`. -/
theorem exchange_protocol_violation_C7_witness :
    FatalOnUnknown wMesh 1 [(0, 99, 5)] :=
  exchange_protocol_violation_C7 wMesh 1 [(0, 99, 5)]

/-- A cell none of whose vertices appears in the owner's `VertexGhostMap`. -/
def NoVertexInterest (m : GMesh) (c : GCell) : Prop :=
  ∀ v ∈ c.verts, vertexGhostRanks m c.owner v = []

/-- Benign absence of ghost interest: the owner sends nothing for the cell,
and the exchange on any rank still completes normally with no unpack
callback for that cell. -/
def NoGhostInterestBenign {α : Type} (m : GMesh) (pack : ℕ → α) (c : GCell)
    (r : ℕ) : Prop :=
  (∀ r', ∀ e ∈ message m pack c.owner r', ¬(e.1 = c.cid)) ∧
  (∃ invs, exchangeToGhosts m pack r = Except.ok invs ∧
    ∀ t ∈ invs, ¬(t.1.cid = c.cid))

/-- C8: a locally owned cell none of whose vertices appears in the
`VertexGhostMap` triggers no send, and its absence from the exchange is a
non-error outcome: the exchange completes normally and invokes no callback
and no assertion for that cell. -/
theorem exchange_no_interest_C8 {α : Type} (m : GMesh) (hwf : GMesh.Wf m)
    (pack : ℕ → α) (c : GCell) (hc : c ∈ m.cells)
    (hno : NoVertexInterest m c) (r : ℕ) :
    NoGhostInterestBenign m pack c r := by
  have hdest : destinations m c.owner c = [] := by
    unfold destinations
    have hfl : ∀ l : List ℕ, (∀ v ∈ l, vertexGhostRanks m c.owner v = []) →
        (l.flatMap fun v => vertexGhostRanks m c.owner v) = [] := by
      intro l hl
      induction l with
      | nil => rfl
      | cons v t ih =>
        rw [List.flatMap_cons, hl v (List.mem_cons_self v t),
          List.nil_append]
        exact ih (fun w hw => hl w (List.mem_cons_of_mem v hw))
    rw [hfl c.verts hno]
    rfl
  constructor
  · intro r' e he
    unfold message at he
    rw [List.mem_map] at he
    obtain ⟨cell, hcell, rfl⟩ := he
    rw [List.mem_filter, Bool.and_eq_true, beq_iff_eq] at hcell
    intro hcid
    have hcid' : cell.cid = c.cid := hcid
    have hcellc : cell = c := by
      have h4 := findCell_eq_self m hwf cell hcell.1
      rw [hcid'] at h4
      have h3 := findCell_eq_self m hwf c hc
      rw [h4] at h3
      exact Option.some.inj h3
    have hcontains := hcell.2.2
    rw [hcellc, hdest] at hcontains
    simp at hcontains
  · obtain ⟨invs, hdel, hmap, hall⟩ :=
      deliver_ok_of_allGhost m r (received m pack r)
        (received_allGhost m hwf pack r)
    refine ⟨invs, hdel, ?_⟩
    intro t ht hcid
    have hmem : (t.2.1, t.1.cid, t.2.2) ∈ received m pack r := by
      rw [← hmap]
      exact List.mem_map_of_mem _ ht
    obtain ⟨p, hpr, hpne, cell, hcm, hco, hdestm, heq⟩ :=
      mem_received_elim m pack r _ hmem
    obtain ⟨e1, e2, e3⟩ :
        t.2.1 = p ∧ t.1.cid = cell.cid ∧ t.2.2 = pack cell.cid := by
      simpa [Prod.ext_iff] using heq
    have hcellc : cell = c := by
      have h4 := findCell_eq_self m hwf cell hcm
      rw [← e2, hcid] at h4
      have h3 := findCell_eq_self m hwf c hc
      rw [h4] at h3
      exact Option.some.inj h3
    rw [hcellc] at hdestm hco
    rw [← hco, hdest] at hdestm
    cases hdestm

/-- The isolated cell of the witness mesh. -/
def wCellIso : GCell := ⟨2, 0, [5, 6]⟩

/-- Witness for C8 at the isolated cell of the concrete mesh. -/
theorem exchange_no_interest_C8_witness :
    GMesh.Wf wMesh ∧ wCellIso ∈ wMesh.cells ∧ NoVertexInterest wMesh wCellIso ∧
    NoGhostInterestBenign wMesh wPack wCellIso 1 := by
  refine ⟨by unfold GMesh.Wf; decide, by decide,
    by unfold NoVertexInterest; decide, ?_⟩
  exact exchange_no_interest_C8 wMesh (by unfold GMesh.Wf; decide) wPack
    wCellIso (by decide) (by unfold NoVertexInterest; decide) 1

/-! ## 3. Quadrature-point data storage and refinement-aware transfer

`CellDataStorage` and
`parallel::distributed::ContinuousQuadratureDataTransfer`
(`include/deal.II/base/quadrature_point_data.h`) are not part of the
sample (only the test `quadrature_point_data_03.cc` is).  Following §4.3 of
the specification, the transfer is modelled as: sample per-cell data at the
cell's quadrature points, project it onto the polynomial space `FE_Q(2)`
(a representation independent of the quadrature rule), and evaluate that
representation at the new cells' quadrature points.  The model's quadrature
rule is the 3×3 tensor grid of the cell (Gauss nodes are irrational, hence
not expressible in the rational embedding); on functions of the `FE_Q(2)`
space — the case the test exercises — the `L2` projection coincides with
interpolation at these unisolvent points, so the model reproduces the
projection exactly where the claims speak. -/

/-- 1-D quadratic Lagrange basis on the reference nodes `0, 1/2, 1`. -/
def lagQ : ℕ → ℚ → ℚ
  | 0 => fun t => (2 * t - 1) * (t - 1)
  | 1 => fun t => -4 * t * (t - 1)
  | 2 => fun t => t * (2 * t - 1)
  | _ => fun _ => 0

/-- Reference interpolation nodes `0, 1/2, 1`. -/
def node : ℕ → ℚ
  | 0 => 0
  | 1 => 1 / 2
  | 2 => 1
  | _ => 0

/-- An axis-aligned square cell: lower-left corner and extent. -/
structure QCell where
  x0 : ℚ
  y0 : ℚ
  hs : ℚ
deriving DecidableEq

/-- Modelled from the spec: the cell's quadrature points (3×3 tensor grid,
row-major: index `3*j + k` is the point `(x_j, y_k)`). -/
def qpts (c : QCell) : List (ℚ × ℚ) :=
  (List.range 3).flatMap fun j => (List.range 3).map fun k =>
    (c.x0 + c.hs * node j, c.y0 + c.hs * node k)

/-- Per-cell quadrature-point data obtained by sampling a field. -/
def sampleAt (f : ℚ → ℚ → ℚ) (c : QCell) : List ℚ :=
  (qpts c).map fun p => f p.1 p.2

/-- Modelled from the spec (§4.3): evaluate, at an arbitrary point, the
`FE_Q(2)` representation projected from the cell's quadrature-point data. -/
def projEval (c : QCell) (data : List ℚ) (x y : ℚ) : ℚ :=
  ∑ j ∈ Finset.range 3, ∑ k ∈ Finset.range 3,
    data.getD (3 * j + k) 0 * lagQ j ((x - c.x0) / c.hs) *
      lagQ k ((y - c.y0) / c.hs)

/-- Modelled from the spec (§4.3): transfer one cell's data across the
topology change — project the parent's quadrature data and re-sample the
projected representation at the new cell's quadrature points. -/
def transferCell (parent child : QCell) (data : List ℚ) : List ℚ :=
  (qpts child).map fun p => projEval parent data p.1 p.2

/-- The tensor-product polynomial space `FE_Q(2)`: biquadratics. -/
def biquad (a : ℕ → ℕ → ℚ) : ℚ → ℚ → ℚ := fun x y =>
  ∑ i ∈ Finset.range 3, ∑ j ∈ Finset.range 3, a i j * x ^ i * y ^ j

set_option maxHeartbeats 1000000 in
/-- The projection step is exact on the `FE_Q(2)` space: projecting the
samples of a biquadratic and evaluating anywhere returns the biquadratic. -/
lemma projEval_biquad (c : QCell) (hh : ¬(c.hs = 0)) (a : ℕ → ℕ → ℚ)
    (x y : ℚ) :
    projEval c (sampleAt (biquad a) c) x y = biquad a x y := by
  obtain ⟨x0, y0, h⟩ := c
  simp only [projEval, sampleAt, qpts, biquad, Finset.sum_range_succ,
    Finset.sum_range_zero, List.flatMap, List.map, List.range_succ,
    List.range_zero, node, lagQ]
  norm_num [List.getD]
  field_simp
  ring

/-- The first component of the test field `MyFunction`
(`quadrature_point_data_03.cc` line 57): `0.5 x² + 2.1 y² + 2`. -/
def myFunc1 : ℚ → ℚ → ℚ := fun x y => 1 / 2 * x ^ 2 + 21 / 10 * y ^ 2 + 2

/-- The second component of the test field (`quadrature_point_data_03.cc`
line 59): `0.1 x + 22.5 y²`. -/
def myFunc2 : ℚ → ℚ → ℚ := fun x y => 1 / 10 * x + 45 / 2 * y ^ 2

/-- Coefficients of `myFunc1` in the biquadratic basis. -/
def myCoef1 : ℕ → ℕ → ℚ := fun i j =>
  if i = 2 ∧ j = 0 then 1 / 2
  else if i = 0 ∧ j = 2 then 21 / 10
  else if i = 0 ∧ j = 0 then 2 else 0

/-- Coefficients of `myFunc2` in the biquadratic basis. -/
def myCoef2 : ℕ → ℕ → ℚ := fun i j =>
  if i = 1 ∧ j = 0 then 1 / 10
  else if i = 0 ∧ j = 2 then 45 / 2 else 0

/-- `myFunc1` lies in the `FE_Q(2)` space. -/
lemma myFunc1_eq_biquad : myFunc1 = biquad myCoef1 := by
  funext x y
  simp only [myFunc1, biquad, myCoef1, Finset.sum_range_succ,
    Finset.sum_range_zero]
  norm_num
  ring

/-- `myFunc2` lies in the `FE_Q(2)` space. -/
lemma myFunc2_eq_biquad : myFunc2 = biquad myCoef2 := by
  funext x y
  simp only [myFunc2, biquad, myCoef2, Finset.sum_range_succ,
    Finset.sum_range_zero]
  norm_num
  ring

/-- The four lower-left corner coordinates of the 4×4 cell grid. -/
def quarters : List ℚ := [0, 1 / 4, 1 / 2, 3 / 4]

/-- The 4×4-cell unit-square mesh of the test scenario (unit square refined
twice: 16 active cells of extent 1/4). -/
def oldMesh : List QCell :=
  quarters.flatMap fun x => quarters.map fun y => { x0 := x, y0 := y, hs := 1 / 4 }

/-- The refinement criterion of the test (`quadrature_point_data_03.cc`
lines 202-204): cells whose center has `x < 0.5`. -/
def needsRefine (c : QCell) : Bool := decide (c.x0 + c.hs / 2 < 1 / 2)

/-- The four children of an isotropically refined square cell. -/
def children (c : QCell) : List QCell :=
  [⟨c.x0, c.y0, c.hs / 2⟩, ⟨c.x0 + c.hs / 2, c.y0, c.hs / 2⟩,
   ⟨c.x0, c.y0 + c.hs / 2, c.hs / 2⟩,
   ⟨c.x0 + c.hs / 2, c.y0 + c.hs / 2, c.hs / 2⟩]

/-- Execute the refinement: each flagged cell is replaced by its four
children (paired with their parent), every other cell persists (paired with
itself). -/
def refineMesh (l : List QCell) : List (QCell × QCell) :=
  l.flatMap fun c =>
    if needsRefine c then (children c).map fun ch => (ch, c) else [(c, c)]

/-- Every cell of the 16-cell mesh has extent 1/4, in particular nonzero. -/
lemma oldMesh_hs (c : QCell) (hc : c ∈ oldMesh) : c.hs = 1 / 4 := by
  unfold oldMesh at hc
  rw [List.mem_flatMap] at hc
  obtain ⟨x, hx, hc⟩ := hc
  rw [List.mem_map] at hc
  obtain ⟨y, hy, rfl⟩ := hc
  rfl

/-- C9: with zero refinement/coarsening/repartitioning (every cell is its
own parent), the quadrature-point data transfer reproduces the pre-transfer
data — samples of a field in the projection space, as in the test scenario —
exactly at every quadrature point of every cell of the mesh. -/
theorem transfer_idempotent_C9 (a : ℕ → ℕ → ℚ) :
    ∀ c ∈ oldMesh,
      transferCell c c (sampleAt (biquad a) c) = sampleAt (biquad a) c := by
  intro c hc
  have hh : ¬(c.hs = 0) := by
    rw [oldMesh_hs c hc]
    norm_num
  exact List.map_congr_left (fun p _ => projEval_biquad c hh a p.1 p.2)

/-- Witness for C9 at the first cell of the 16-cell mesh with the
coefficients of the test's first field component. -/
theorem transfer_idempotent_C9_witness :
    (⟨0, 0, 1 / 4⟩ : QCell) ∈ oldMesh ∧
    transferCell ⟨0, 0, 1 / 4⟩ ⟨0, 0, 1 / 4⟩
        (sampleAt (biquad myCoef1) ⟨0, 0, 1 / 4⟩)
      = sampleAt (biquad myCoef1) ⟨0, 0, 1 / 4⟩ := by
  have hmem : (⟨0, 0, 1 / 4⟩ : QCell) ∈ oldMesh := by
    unfold oldMesh
    rw [List.mem_flatMap]
    refine ⟨0, by simp [quarters], ?_⟩
    rw [List.mem_map]
    exact ⟨0, by simp [quarters], rfl⟩
  exact ⟨hmem, transfer_idempotent_C9 myCoef1 ⟨0, 0, 1 / 4⟩ hmem⟩

/-- C5: in the test scenario — 2-D unit square mesh with 16 active cells,
data sampled from the quadratic test field, left half (center `x < 1/2`)
refined — re-sampling the transferred data at the new quadrature points of
every cell of the new mesh (children of refined cells and unrefined cells
alike) reproduces both components of the analytic field exactly, hence
within `1e-10`. -/
theorem transfer_refine_scenario_C5 :
    ∀ pr ∈ refineMesh oldMesh,
      transferCell pr.2 pr.1 (sampleAt myFunc1 pr.2) = sampleAt myFunc1 pr.1 ∧
      transferCell pr.2 pr.1 (sampleAt myFunc2 pr.2) = sampleAt myFunc2 pr.1 := by
  intro pr hpr
  have hh : ¬(pr.2.hs = 0) := by
    unfold refineMesh at hpr
    rw [List.mem_flatMap] at hpr
    obtain ⟨c, hc, hpr⟩ := hpr
    have hc4 : c.hs = 1 / 4 := oldMesh_hs c hc
    by_cases hr : needsRefine c = true
    · rw [if_pos hr, List.mem_map] at hpr
      obtain ⟨ch, hch, rfl⟩ := hpr
      rw [hc4]
      norm_num
    · rw [if_neg hr] at hpr
      rw [List.mem_singleton] at hpr
      subst hpr
      rw [hc4]
      norm_num
  constructor
  · rw [myFunc1_eq_biquad]
    exact List.map_congr_left
      (fun p _ => projEval_biquad pr.2 hh myCoef1 p.1 p.2)
  · rw [myFunc2_eq_biquad]
    exact List.map_congr_left
      (fun p _ => projEval_biquad pr.2 hh myCoef2 p.1 p.2)

/-- Witness for C5 at the first child of the first refined cell. -/
theorem transfer_refine_scenario_C5_witness :
    ((⟨0, 0, 1 / 8⟩, ⟨0, 0, 1 / 4⟩) : QCell × QCell) ∈ refineMesh oldMesh ∧
    transferCell ⟨0, 0, 1 / 4⟩ ⟨0, 0, 1 / 8⟩ (sampleAt myFunc1 ⟨0, 0, 1 / 4⟩)
      = sampleAt myFunc1 ⟨0, 0, 1 / 8⟩ := by
  have hmem0 : (⟨0, 0, 1 / 4⟩ : QCell) ∈ oldMesh := by
    unfold oldMesh
    rw [List.mem_flatMap]
    refine ⟨0, by simp [quarters], ?_⟩
    rw [List.mem_map]
    exact ⟨0, by simp [quarters], rfl⟩
  have hmem : ((⟨0, 0, 1 / 8⟩, ⟨0, 0, 1 / 4⟩) : QCell × QCell)
      ∈ refineMesh oldMesh := by
    unfold refineMesh
    rw [List.mem_flatMap]
    refine ⟨⟨0, 0, 1 / 4⟩, hmem0, ?_⟩
    rw [if_pos (by unfold needsRefine; rw [decide_eq_true_eq]; norm_num)]
    rw [List.mem_map]
    refine ⟨⟨0, 0, 1 / 8⟩, ?_, rfl⟩
    unfold children
    rw [List.mem_cons]
    exact Or.inl (by norm_num [QCell.mk.injEq])
  exact ⟨hmem,
    (transfer_refine_scenario_C5 (⟨0, 0, 1 / 8⟩, ⟨0, 0, 1 / 4⟩) hmem).1⟩

/-- Modelled from the spec: `CellDataStorage`
(`include/deal.II/base/quadrature_point_data.h`, not in the sample) — a
per-cell association of quadrature-point data, keyed by cell. -/
abbrev CellDataStorage : Type := List (ℕ × List ℚ)

/-- Modelled from the spec: `CellDataStorage::get_data(cell)` — the data
currently stored for a cell, if any. -/
def getData (s : CellDataStorage) (cell : ℕ) : Option (List ℚ) :=
  (s.find? fun e => e.1 == cell).map Prod.snd

/-- Replace (or create) the whole data vector of one cell. -/
def setData (s : CellDataStorage) (cell : ℕ) (vals : List ℚ) :
    CellDataStorage :=
  match s with
  | [] => [(cell, vals)]
  | e :: t => if e.1 == cell then (cell, vals) :: t else e :: setData t cell vals

/-- Modelled from the spec: `CellDataStorage::initialize<T>(cell, n)` —
allocate `n` default-initialized entries for the cell. -/
def initCellData (s : CellDataStorage) (cell n : ℕ) : CellDataStorage :=
  setData s cell (List.replicate n 0)

/-- Modelled from the spec: a write through one of the shared pointers
returned by `get_data` — entry `q` of the cell's data becomes `v`. -/
def writeData (s : CellDataStorage) (cell q : ℕ) (v : ℚ) : CellDataStorage :=
  match getData s cell with
  | none => s
  | some vals => setData s cell (vals.set q v)

/-- Reading a cell right after its data vector was set returns that vector. -/
lemma getData_setData_self (s : CellDataStorage) (cell : ℕ) (vals : List ℚ) :
    getData (setData s cell vals) cell = some vals := by
  induction s with
  | nil =>
    show getData [(cell, vals)] cell = some vals
    unfold getData
    rw [List.find?_cons_of_pos _ (by simp)]
    rfl
  | cons e t ih =>
    by_cases he : e.1 = cell
    · show getData (if e.1 == cell then (cell, vals) :: t
        else e :: setData t cell vals) cell = some vals
      rw [if_pos (by simp [he])]
      unfold getData
      rw [List.find?_cons_of_pos _ (by simp)]
      rfl
    · show getData (if e.1 == cell then (cell, vals) :: t
        else e :: setData t cell vals) cell = some vals
      rw [if_neg (by simp [he])]
      unfold getData
      rw [List.find?_cons_of_neg _ (by simp [he])]
      exact ih

/-- Setting one cell's data vector leaves every other cell's data
untouched. -/
lemma getData_setData_other (s : CellDataStorage) (cell cell' : ℕ)
    (vals : List ℚ) (hne : ¬(cell' = cell)) :
    getData (setData s cell vals) cell' = getData s cell' := by
  induction s with
  | nil =>
    show getData [(cell, vals)] cell' = getData [] cell'
    unfold getData
    rw [List.find?_cons_of_neg _
      (by simp only [beq_iff_eq]; exact fun h => hne h.symm)]
  | cons e t ih =>
    by_cases he : e.1 = cell
    · show getData (if e.1 == cell then (cell, vals) :: t
        else e :: setData t cell vals) cell' = getData (e :: t) cell'
      rw [if_pos (by simp [he])]
      unfold getData
      rw [List.find?_cons_of_neg _
          (by simp only [beq_iff_eq]; exact fun h => hne h.symm),
        List.find?_cons_of_neg _
          (by simp only [beq_iff_eq, he]; exact fun h => hne h.symm)]
    · show getData (if e.1 == cell then (cell, vals) :: t
        else e :: setData t cell vals) cell' = getData (e :: t) cell'
      rw [if_neg (by simp [he])]
      by_cases he' : e.1 = cell'
      · unfold getData
        rw [List.find?_cons_of_pos _ (by simp [he']),
          List.find?_cons_of_pos _ (by simp [he'])]
      · unfold getData
        rw [List.find?_cons_of_neg _ (by simp [he']),
          List.find?_cons_of_neg _ (by simp [he'])]
        exact ih

/-- C10: `CellDataStorage` is a faithful store — `initialize(cell, n)`
allocates `n` default entries for the cell, a value written through the
pointers returned by `get_data(cell)` is exactly what every subsequent
`get_data(cell)` returns, and both operations leave every other cell's data
unchanged, so locally owned cells behave independently. -/
theorem cellDataStorage_faithful_C10 (s : CellDataStorage) (cell cell' : ℕ)
    (hne : ¬(cell' = cell)) (n q : ℕ) (v : ℚ) (vals : List ℚ)
    (hget : getData s cell = some vals) :
    getData (initCellData s cell n) cell = some (List.replicate n 0) ∧
    getData (writeData s cell q v) cell = some (vals.set q v) ∧
    getData (writeData s cell q v) cell' = getData s cell' ∧
    getData (initCellData s cell n) cell' = getData s cell' := by
  have hw : writeData s cell q v = setData s cell (vals.set q v) := by
    unfold writeData
    rw [hget]
  exact ⟨getData_setData_self s cell _,
    by rw [hw]; exact getData_setData_self s cell _,
    by rw [hw]; exact getData_setData_other s cell cell' _ hne,
    getData_setData_other s cell cell' _ hne⟩

/-- Witness for C10 on a concrete two-cell store. -/
theorem cellDataStorage_faithful_C10_witness :
    getData [(0, [1, 2]), (5, [3])] 0 = some [1, 2] ∧
    ¬((5 : ℕ) = 0) ∧
    getData (initCellData [(0, [1, 2]), (5, [3])] 0 3) 0
      = some (List.replicate 3 0) ∧
    getData (writeData [(0, [1, 2]), (5, [3])] 0 1 9) 0
      = some ([1, 2].set 1 9) ∧
    getData (writeData [(0, [1, 2]), (5, [3])] 0 1 9) 5
      = getData [(0, [1, 2]), (5, [3])] 5 := by
  refine ⟨by decide, by decide, ?_, ?_, ?_⟩
  · exact (cellDataStorage_faithful_C10 [(0, [1, 2]), (5, [3])] 0 5
      (by decide) 3 1 9 [1, 2] (by decide)).1
  · exact (cellDataStorage_faithful_C10 [(0, [1, 2]), (5, [3])] 0 5
      (by decide) 3 1 9 [1, 2] (by decide)).2.1
  · exact (cellDataStorage_faithful_C10 [(0, [1, 2]), (5, [3])] 0 5
      (by decide) 3 1 9 [1, 2] (by decide)).2.2.1
